import Mathlib

/-!
# bufferpool: the growable byte buffer (`bytebuffer.go`)

A shallow embedding of `Buffer[T]` / `ByteBuffer` and their methods, and the
properties of the buffer's append, set, reset, stream-read and stream-write
operations.

## Modelling conventions

* A Go slice is a window onto a backing array.  Only the part of the array from
  the slice's first element up to its capacity is reachable through the slice,
  so a slice is modelled by that part of the array (`arr`, whose length is the
  capacity) together with the slice length (`len`).  A well-formed slice has
  `len ≤ cap`; the elements at positions `[len, cap)` are scratch space.
* `ByteBuffer` embeds `*Buffer[byte]`: its value-receiver methods assign
  `b.B` through that pointer, so they update the shared `Buffer`.  The methods
  are modelled as functions returning the updated buffer.  A `ByteBuffer` whose
  embedded pointer is nil is not a buffer and is outside the model.
* Lengths, capacities and the `int64` counters of `ReadFrom` are unbounded
  integers: a capacity is bounded by the address space, far below `2^62`, so
  the doubling `nMax *= 2` cannot wrap; running out of memory is outside the
  model.
* The capacity that the built-in `append` picks when it has to reallocate is
  decided by the Go runtime.  It is a parameter `g` of the model (old capacity
  and required length to new capacity); whatever `g` answers, the new capacity
  is at least the required length, as the language guarantees.
* A panic of the Go runtime (slice bounds out of range, negative `make`) is an
  explicit outcome of the model.
* `WriteTo` passes the slice `b.B` itself to the sink.  A sink is handed that
  slice, which shares the buffer's backing array, and may be the buffer
  itself; what it does to the buffer during the call (stores through the
  slice, calls of the buffer's methods) is part of the result of `Write`.
-/

set_option autoImplicit false

namespace Bufferpool

/-! ## Bytes, strings, errors -/

/-- A byte is a number in `0..255`. -/
abbrev Byte := Fin 256

/-- A Go string: an immutable sequence of bytes (not necessarily UTF-8). -/
structure GoString where
  bytes : List Byte
  deriving DecidableEq, Repr

/-- Length of a Go string, `len(s)`: its number of bytes. -/
def GoString.length (s : GoString) : Nat := s.bytes.length

/-- The values of Go's `error` interface that matter here: the sentinel
`io.EOF`, and every other error value, told apart by an identifier.  The nil
error is `none : Option Error`. -/
inductive Error where
  | EOF
  | other (id : Nat)
  deriving DecidableEq, Repr

/-! ## Slices -/

/-- A Go slice `[]T`: the reachable part of its backing array and its length. -/
structure Slice (T : Type) where
  arr : List T
  len : Nat
  deriving DecidableEq, Repr

namespace Slice
variable {T : Type}

/-- The capacity `cap(s)`. -/
def cap (s : Slice T) : Nat := s.arr.length

/-- Well-formedness of a slice value: `len(s) ≤ cap(s)`. -/
def WF (s : Slice T) : Prop := s.len ≤ s.cap

instance (s : Slice T) : Decidable s.WF := by unfold WF; infer_instance

/-- The elements `s[0], ..., s[len(s)-1]` of the slice. -/
def elems (s : Slice T) : List T := s.arr.take s.len

/-- The nil slice: length 0, capacity 0. -/
def nil : Slice T := ⟨[], 0⟩

/-- The expression `s[:0]`: same backing array, length 0.  It never panics,
as `0 ≤ cap(s)`. -/
def empty (s : Slice T) : Slice T := ⟨s.arr, 0⟩

/-- The expression `s[:hi]`; panics (`none`) unless `0 ≤ hi ≤ cap(s)`. -/
def sliceTo (s : Slice T) (hi : Int) : Option (Slice T) :=
  if 0 ≤ hi ∧ hi ≤ (s.cap : Int) then some ⟨s.arr, hi.toNat⟩ else none

/-- The expression `s[lo:]`; panics (`none`) unless `0 ≤ lo ≤ len(s)`.  The
result shares the backing array from position `lo` on. -/
def sliceFrom (s : Slice T) (lo : Int) : Option (Slice T) :=
  if 0 ≤ lo ∧ lo ≤ (s.len : Int) then some ⟨s.arr.drop lo.toNat, s.len - lo.toNat⟩ else none

/-- The call `make([]T, n)`: a fresh slice of length and capacity `n` filled
with the zero value; panics (`none`) when `n` is negative. -/
def make (zero : T) (n : Int) : Option (Slice T) :=
  if 0 ≤ n then some ⟨List.replicate n.toNat zero, n.toNat⟩ else none

/-- The call `copy(dst, src)`: the first `min(len(dst), len(src))` elements of
`dst` become those of `src`. -/
def copy (dst src : Slice T) : Slice T :=
  ⟨src.arr.take (min dst.len src.len) ++ dst.arr.drop (min dst.len src.len), dst.len⟩

/-- Storing `data` at the start of a memory region holding `old`: at most
`old.length` elements are stored, the rest of the region keeps its values. -/
def overlay (old data : List T) : List T :=
  data.take old.length ++ old.drop data.length

/-- The effect on `s` of a callee that was handed the window `s[lo:]` and
stored `data` at its start: the window shares the backing array of `s`. -/
def storeAt (s : Slice T) (lo : Nat) (data : List T) : Slice T :=
  ⟨s.arr.take lo ++ overlay ((s.arr.drop lo).take (s.len - lo)) data ++ s.arr.drop (lo + (s.len - lo)),
   s.len⟩

/-- The built-in `append(s, p...)`.  When the elements fit the capacity they
are stored in place behind the current elements; otherwise a new array is
allocated, of the capacity chosen by the runtime policy `g` (and at least the
required length), the old elements and `p` are copied in and the rest is
zeroed. -/
def append (g : Nat → Nat → Nat) (zero : T) (s : Slice T) (p : List T) : Slice T :=
  if s.len + p.length ≤ s.cap then
    ⟨s.arr.take s.len ++ p ++ s.arr.drop (s.len + p.length), s.len + p.length⟩
  else
    ⟨s.arr.take s.len ++ p ++
      List.replicate (max (g s.cap (s.len + p.length)) (s.len + p.length) - (s.len + p.length)) zero,
     s.len + p.length⟩

end Slice

/-! ## Buffer[T] -/

/-- The struct `Buffer[T]` with its single field `B`. -/
structure Buffer (T : Type) where
  B : Slice T
  deriving DecidableEq, Repr

/-- The struct `ByteBuffer`, which embeds `*Buffer[byte]`: it is the byte
buffer it points to, and the methods of `Buffer[byte]` are its methods too. -/
abbrev ByteBuffer := Buffer Byte

namespace Buffer
variable {T : Type} [Inhabited T]

/-- The method `Len`: `len(b.B)`. -/
def Len (b : Buffer T) : Nat := b.B.len

/-- The method `Write`: `b.B = append(b.B, p...)`, returns `(len(p), nil)`. -/
def Write (g : Nat → Nat → Nat) (b : Buffer T) (p : List T) : (Nat × Option Error) × Buffer T :=
  ((p.length, none), ⟨Slice.append g default b.B p⟩)

/-- The method `Set`: `b.B = append(b.B[:0], p...)`. -/
def Set (g : Nat → Nat → Nat) (b : Buffer T) (p : List T) : Buffer T :=
  ⟨Slice.append g default b.B.empty p⟩

/-- The method `Reset`: `b.B = b.B[:0]`. -/
def Reset (b : Buffer T) : Buffer T := ⟨b.B.empty⟩

end Buffer

/-! ## ByteBuffer: the byte-only methods -/

namespace ByteBuffer

/-- The method `Bytes`: returns `b.B`. -/
def Bytes (b : ByteBuffer) : Slice Byte := b.B

/-- The method `WriteByte`: `b.B = append(b.B, c)`, returns nil. -/
def WriteByte (g : Nat → Nat → Nat) (b : ByteBuffer) (c : Byte) : Option Error × ByteBuffer :=
  (none, ⟨Slice.append g 0 b.B [c]⟩)

/-- The method `WriteString`: `b.B = append(b.B, s...)`, returns `(len(s), nil)`. -/
def WriteString (g : Nat → Nat → Nat) (b : ByteBuffer) (s : GoString) :
    (Nat × Option Error) × ByteBuffer :=
  ((s.length, none), ⟨Slice.append g 0 b.B s.bytes⟩)

/-- The method `SetString`: `b.B = append(b.B[:0], s...)`. -/
def SetString (g : Nat → Nat → Nat) (b : ByteBuffer) (s : GoString) : ByteBuffer :=
  ⟨Slice.append g 0 b.B.empty s.bytes⟩

/-- The method `String`: the conversion `string(b.B)` copies the elements of
the slice into a new string. -/
def String (b : ByteBuffer) : GoString := ⟨b.B.elems⟩

end ByteBuffer

/-! ## Readers -/

/-- What one call `r.Read(w)` does: the bytes it stored at the start of the
window `w`, the count `nn` and error `err` it returned, and the state the
reader is left in. -/
structure ReadResult (σ : Type) where
  data : List Byte
  nn : Int
  err : Option Error
  next : σ

/-- An `io.Reader` with internal state `σ`: `Read` is given the state and the
current contents of the window it may fill. -/
structure Reader (σ : Type) where
  Read : σ → List Byte → ReadResult σ

/-- The part of the `io.Reader` contract that `ReadFrom` relies on: every
call returns a count `0 ≤ nn ≤ len(w)`. -/
def Reader.Respects {σ : Type} (r : Reader σ) : Prop :=
  ∀ (s : σ) (w : List Byte), 0 ≤ (r.Read s w).nn ∧ (r.Read s w).nn ≤ (w.length : Int)

/-- Started in state `s` and offered non-empty windows, the reader reports a
non-nil error in one of its first `k` calls. -/
def Reader.ErrorsWithin {σ : Type} (r : Reader σ) : Nat → σ → Prop
  | 0, _ => False
  | k + 1, s => ∀ w : List Byte, w ≠ [] →
      (r.Read s w).err = none → Reader.ErrorsWithin r k (r.Read s w).next

/-- Started in state `s` and offered non-empty windows, the first `k - 1`
calls of the reader return a nil error and call number `k` returns a non-nil
error. -/
def Reader.FirstErrorAt {σ : Type} (r : Reader σ) : Nat → σ → Prop
  | 0, _ => False
  | 1, s => ∀ w : List Byte, w ≠ [] → (r.Read s w).err ≠ none
  | k + 2, s => ∀ w : List Byte, w ≠ [] →
      (r.Read s w).err = none ∧ Reader.FirstErrorAt r (k + 1) (r.Read s w).next

/-! ## ReadFrom -/

/-- How a run of a method ends: it returns, the Go runtime panics, or the
model ran out of fuel before the loop ended. -/
inductive Outcome (α : Type) where
  | returned (a : α)
  | panicked
  | outOfFuel

/-- One call of `r.Read` as issued by `ReadFrom`: the write position `n` and
working capacity `nMax` at the call, whether this iteration doubled the
capacity first, the window offered, the count and error returned, and the
bytes delivered (the first `nn` bytes of the window after the call). -/
structure ReadCall where
  n : Int
  nMax : Int
  grew : Bool
  window : List Byte
  nn : Int
  err : Option Error
  chunk : List Byte
  deriving DecidableEq, Repr

/-- Everything a returning `ReadFrom` leaves behind: the returned count and
error, the buffer, the state of the reader, and the calls it made. -/
structure ReadFromResult (σ : Type) where
  n : Int
  err : Option Error
  b : ByteBuffer
  rs : σ
  calls : List ReadCall

namespace ByteBuffer

/-- Lines 36-41 of `ReadFrom`: the working slice and its capacity.
`nMax == 0` allocates 64 bytes, otherwise `p = p[:nMax]`. -/
def readFromInit (p : Slice Byte) (nMax : Int) : Option (Slice Byte × Int) :=
  if nMax = 0 then
    (Slice.make (0 : Byte) 64).map (fun q => (q, 64))
  else
    (p.sliceTo nMax).map (fun q => (q, nMax))

/-- Lines 43-48 of `ReadFrom`: when `n == nMax`, double `nMax`, allocate
`bNew` and copy `p` into it.  The flag tells whether that happened. -/
def growIfFull (p : Slice Byte) (n nMax : Int) : Option (Slice Byte × Int × Bool) :=
  if n = nMax then
    (Slice.make (0 : Byte) (nMax * 2)).map (fun bNew => (Slice.copy bNew p, nMax * 2, true))
  else
    some (p, nMax, false)

/-- The loop of `ReadFrom` (lines 42-59), at most `fuel` iterations.  `calls`
collects the calls of `r.Read` made so far. -/
def readLoop {σ : Type} (r : Reader σ) (nStart : Int) :
    Nat → Slice Byte → Int → Int → σ → List ReadCall → Outcome (ReadFromResult σ)
  | 0, _, _, _, _, _ => .outOfFuel
  | fuel + 1, p, n, nMax, rs, calls =>
    match growIfFull p n nMax with
    | none => .panicked
    | some (p1, nMax1, grew) =>
      match p1.sliceFrom n with
      | none => .panicked
      | some w =>
        let res := r.Read rs w.elems
        let p2 := p1.storeAt n.toNat res.data
        let n2 := n + res.nn
        let call : ReadCall :=
          ⟨n, nMax1, grew, w.elems, res.nn, res.err, (Slice.overlay w.elems res.data).take res.nn.toNat⟩
        match res.err with
        | some e =>
          match p2.sliceTo n2 with
          | none => .panicked
          | some bB =>
            .returned ⟨n2 - nStart, if e = Error.EOF then none else some e, ⟨bB⟩, res.next,
              calls ++ [call]⟩
        | none => readLoop r nStart fuel p2 n2 nMax1 res.next (calls ++ [call])

/-- The method `ReadFrom`, run for at most `fuel` iterations of its loop
against the reader `r` in state `rs`. -/
def ReadFrom {σ : Type} (r : Reader σ) (fuel : Nat) (b : ByteBuffer) (rs : σ) :
    Outcome (ReadFromResult σ) :=
  match readFromInit b.B (b.B.cap : Int) with
  | none => .panicked
  | some (p, nMax) => readLoop r (b.B.len : Int) fuel p (b.B.len : Int) nMax rs []

end ByteBuffer

/-! ## Example readers -/

/-- A reader that plays a script: call number `i` stores the `i`-th chunk
(as much of it as the window holds) and returns the `i`-th error; once the
script is used up it returns `(0, io.EOF)`. -/
def scriptReader : Reader (List (List Byte × Option Error)) where
  Read := fun s w =>
    match s with
    | [] => ⟨[], 0, some Error.EOF, []⟩
    | (c, e) :: rest => ⟨c.take w.length, ((c.take w.length).length : Int), e, rest⟩

/-- A reader over a byte sequence, as `bytes.Reader`: each call delivers as
many of the remaining bytes as the window holds, and `(0, io.EOF)` once none
remain. -/
def bytesReader : Reader (List Byte) where
  Read := fun s w =>
    match s with
    | [] => ⟨[], 0, some Error.EOF, []⟩
    | x :: xs => ⟨(x :: xs).take w.length, (((x :: xs).take w.length).length : Int), none,
        (x :: xs).drop w.length⟩

/-! ## Closed forms and run summaries used in the proofs -/

open ByteBuffer

/-- The working capacity after lines 43-48, for write position `m` and
capacity `M`. -/
def grownCap (m M : Nat) : Nat := if m = M then 2 * M else M

/-- The working array after lines 43-48, when the slice `p` spans its whole
array of `M` bytes. -/
def grownArr (arr : List Byte) (m M : Nat) : List Byte :=
  if m = M then arr ++ List.replicate M 0 else arr

/-- The call record of one loop iteration at write position `m`, capacity `M`. -/
def callAt {σ : Type} (r : Reader σ) (arr : List Byte) (m M : Nat) (rs : σ) : ReadCall :=
  let w := (grownArr arr m M).drop m
  let res := r.Read rs w
  ⟨(m : Int), ((grownCap m M : Nat) : Int), decide (m = M), w, res.nn, res.err,
    (Slice.overlay w res.data).take res.nn.toNat⟩

/-- The working array after the call of one loop iteration. -/
def arrAfter {σ : Type} (r : Reader σ) (arr : List Byte) (m M : Nat) (rs : σ) : List Byte :=
  let w := (grownArr arr m M).drop m
  (grownArr arr m M).take m ++ Slice.overlay w (r.Read rs w).data

/-- The calls `Write(p1)`, ..., `Write(pk)` made in order on `b`: the results
returned by the calls, and the buffer after the last one. -/
def Buffer.writeAll {T : Type} [Inhabited T] (g : Nat → Nat → Nat) :
    Buffer T → List (List T) → List (Nat × Option Error) × Buffer T
  | b, [] => ([], b)
  | b, p :: ps =>
    ((Buffer.Write g b p).1 :: (Buffer.writeAll g (Buffer.Write g b p).2 ps).1,
     (Buffer.writeAll g (Buffer.Write g b p).2 ps).2)

/-- The method `Set` as the specification words it: `Reset()` followed by
`Append(items)`, where `Append` is the method `Write`. -/
def Buffer.SetSpec {T : Type} [Inhabited T] (g : Nat → Nat → Nat) (b : Buffer T) (p : List T) :
    Buffer T :=
  (Buffer.Write g (Buffer.Reset b) p).2

/-- The byte writers as special cases of `Write`: `WriteByte(c)` as
`Write([]byte{c})` with the count dropped. -/
def ByteBuffer.WriteByteSpec (g : Nat → Nat → Nat) (b : ByteBuffer) (c : Byte) :
    Option Error × ByteBuffer :=
  ((Buffer.Write g b [c]).1.2, (Buffer.Write g b [c]).2)

/-- The byte writers as special cases of `Write`: `WriteString(s)` as
`Write([]byte(s))`. -/
def ByteBuffer.WriteStringSpec (g : Nat → Nat → Nat) (b : ByteBuffer) (s : GoString) :
    (Nat × Option Error) × ByteBuffer :=
  Buffer.Write g b s.bytes

/-- A growth policy for the examples: double the old capacity. -/
def doubling : Nat → Nat → Nat := fun c _ => 2 * c

/-- The calls `cs` are what the reader `r`, started in state `s`, answers to
the windows recorded in them: the count, the error and the bytes delivered
(the first `nn` bytes of the window after the call); none of those windows is
empty. -/
def Reader.Replay {σ : Type} (r : Reader σ) : σ → List ReadCall → Prop
  | _, [] => True
  | s, c :: cs => c.window ≠ [] ∧ c.nn = (r.Read s c.window).nn ∧
      c.err = (r.Read s c.window).err ∧
      c.chunk = (Slice.overlay c.window (r.Read s c.window).data).take c.nn.toNat ∧
      Reader.Replay r (r.Read s c.window).next cs

/-- The calls `cs` are consecutive loop iterations starting at write position
`m` with working capacity `M`: each starts where the previous one ended, and
doubles the capacity first exactly when it finds the array full. -/
def Chain : Nat → Nat → List ReadCall → Prop
  | _, _, [] => True
  | m, M, c :: cs => c.n = (m : Int) ∧ c.nMax = ((grownCap m M : Nat) : Int) ∧
      c.grew = decide (m = M) ∧ Chain (m + c.nn.toNat) (grownCap m M) cs

/-- What a returning run of the loop of `ReadFrom` has done, when it started
with `nStart = a`, write position `m`, a working array `arr` of `M` bytes and
the reader in state `rs`, and made the calls `cs`. -/
structure RunFacts {σ : Type} (r : Reader σ) (a : Nat) (arr : List Byte) (m M : Nat) (rs : σ)
    (cs : List ReadCall) (res : ReadFromResult σ) : Prop where
  nonempty : cs ≠ []
  elems : res.b.B.elems = arr.take m ++ (cs.map (·.chunk)).flatten
  count : res.n = (m : Int) + (cs.map (·.nn)).sum - (a : Int)
  len : (res.b.B.len : Int) = (m : Int) + (cs.map (·.nn)).sum
  mono : m ≤ res.b.B.len
  wf : res.b.B.WF
  quiet : ∀ c ∈ cs.dropLast, c.err = none
  last : ∃ c e, cs.getLast? = some c ∧ c.err = some e ∧
    res.err = if e = Error.EOF then none else some e
  cap : res.b.B.cap = M * 2 ^ (cs.filter (·.grew)).length
  capBound : res.b.B.cap ≤ max M (2 * res.b.B.len)
  bounds : ∀ c ∈ cs, (a : Int) ≤ c.n ∧ c.n < c.nMax ∧
    (c.window.length : Int) = c.nMax - c.n ∧ 0 ≤ c.nn ∧ c.nn ≤ (c.window.length : Int) ∧
    (c.chunk.length : Int) = c.nn
  chain : Chain m M cs
  replay : r.Replay rs cs

/-- The working capacity `nMax` that lines 34-41 of `ReadFrom` start from. -/
def initCap (b : ByteBuffer) : Nat := if b.B.cap = 0 then 64 else b.B.cap

/-- The working array that lines 34-41 of `ReadFrom` start from. -/
def initArr (b : ByteBuffer) : List Byte :=
  if b.B.cap = 0 then List.replicate 64 0 else b.B.arr

/-! ## Sequences of method calls -/

/-- One call of a mutating byte-buffer method that takes data: `Write`,
`WriteByte`, `WriteString`, `Set` or `SetString`, with its argument. -/
inductive Op where
  | Write (p : List Byte)
  | WriteByte (c : Byte)
  | WriteString (s : GoString)
  | Set (p : List Byte)
  | SetString (s : GoString)
  deriving DecidableEq, Repr

/-- The buffer after the method call `op`. -/
def applyOp (g : Nat → Nat → Nat) (b : ByteBuffer) : Op → ByteBuffer
  | .Write p => (Buffer.Write g b p).2
  | .WriteByte c => (ByteBuffer.WriteByte g b c).2
  | .WriteString s => (ByteBuffer.WriteString g b s).2
  | .Set p => Buffer.Set g b p
  | .SetString s => ByteBuffer.SetString g b s

/-- The buffer after the method calls `ops`, made in order. -/
def applyOps (g : Nat → Nat → Nat) (b : ByteBuffer) (ops : List Op) : ByteBuffer :=
  ops.foldl (applyOp g) b

/-- Rounds of reuse: each round calls `Reset()` and then makes the method
calls of the round. -/
def reuseRounds (g : Nat → Nat → Nat) (b : ByteBuffer) (rounds : List (List Op)) : ByteBuffer :=
  rounds.foldl (fun b ops => applyOps g (Buffer.Reset b) ops) b

/-! ## Writers and WriteTo -/

/-- What a sink can do to the buffer while it runs `w.Write(p)` with
`p = b.B`: store bytes through the slice it was handed, which shares the
backing array of the buffer (`store off data` puts `data` at `p[off:]`, within
the capacity), or, when it holds the buffer itself (a `ByteBuffer` is an
`io.Writer` through its promoted `Write`), call the buffer's own mutating
methods. -/
inductive SinkAction where
  | store (off : Nat) (data : List Byte)
  | call (op : Op)
  | reset
  deriving DecidableEq, Repr

/-- One action of the sink on the buffer.  The flag tells whether the slice
`p` handed to the sink still shares the buffer's backing array: a method call
that reallocates ends the sharing, and later stores through `p` no longer
reach the buffer. -/
def sinkStep (g : Nat → Nat → Nat) : ByteBuffer × Bool → SinkAction → ByteBuffer × Bool
  | (b, shared), .store off data =>
    if shared then
      (⟨⟨b.B.arr.take off ++ Slice.overlay (b.B.arr.drop off) data, b.B.len⟩⟩, true)
    else (b, false)
  | (b, shared), .call op =>
    (applyOp g b op, shared && decide ((applyOp g b op).B.cap = b.B.cap))
  | (b, shared), .reset => (Buffer.Reset b, shared)

/-- The buffer after the actions of the sink, made in order. -/
def sinkEffect (g : Nat → Nat → Nat) (b : ByteBuffer) (actions : List SinkAction) : ByteBuffer :=
  (actions.foldl (sinkStep g) (b, true)).1

/-- What one call `w.Write(p)` does: the count and error it returns, the
state the writer is left in, and what it did to the buffer meanwhile. -/
structure WriteResult (τ : Type) where
  n : Int
  err : Option Error
  next : τ
  actions : List SinkAction

/-- An `io.Writer` with internal state `τ`: `Write` is given the state and the
slice itself. -/
structure Writer (τ : Type) where
  Write : τ → Slice Byte → WriteResult τ

/-- The method `WriteTo`: one call `w.Write(b.B)`, whose count and error are
returned.  `WriteTo` itself does not assign `b.B`; the buffer afterwards is
what the sink left. -/
def ByteBuffer.WriteTo {τ : Type} (g : Nat → Nat → Nat) (w : Writer τ) (b : ByteBuffer) (ws : τ) :
    (Int × Option Error) × ByteBuffer × τ :=
  let res := w.Write ws b.B
  ((res.n, res.err), sinkEffect g b res.actions, res.next)

/-- A writer that accepts at most `limit` bytes of each call and reports
the error `e` on a short write; its state is everything it accepted.  It
leaves the slice and the buffer alone. -/
def limitWriter (limit : Nat) (e : Error) : Writer (List Byte) where
  Write := fun s p =>
    ⟨((p.elems.take limit).length : Int), if limit < p.elems.length then some e else none,
      s ++ p.elems.take limit, []⟩

/-- The buffer used as its own sink, `bb.WriteTo(bb)`: the promoted method
`Write` appends the slice it is given to the buffer and returns
`(len(p), nil)`. -/
def selfWriter : Writer Unit where
  Write := fun _ p => ⟨(p.len : Int), none, (), [SinkAction.call (Op.Write p.elems)]⟩

/-- A sink that breaks the `io.Writer` contract by zeroing the first byte of
the slice it is given. -/
def scribbleWriter : Writer Unit where
  Write := fun _ p => ⟨(p.len : Int), none, (), [SinkAction.store 0 [0]]⟩

/-! ## Readers: states reached, and a reader outside the contract -/

/-- The state the reader is in after answering the recorded calls `cs`, one
after the other, from state `s`. -/
def Reader.after {σ : Type} (r : Reader σ) : σ → List ReadCall → σ
  | s, [] => s
  | s, c :: cs => Reader.after r (r.Read s c.window).next cs

/-- A reader outside the `io.Reader` contract: it reports one byte more than
the window holds, together with the error number 7. -/
def overCountReader : Reader Unit where
  Read := fun _ w => ⟨[], (w.length : Int) + 1, some (Error.other 7), ()⟩

/-! ## Theorems -/

theorem grownArr_length (arr : List Byte) (m M : Nat) (h : arr.length = M) :
    (grownArr arr m M).length = grownCap m M := by
  unfold grownArr grownCap
  split
  · simp [h]; omega
  · simp [h]

theorem grownArr_take (arr : List Byte) (m M : Nat) (h : arr.length = M) :
    (grownArr arr m M).take m = arr.take m := by
  unfold grownArr
  split
  · rw [List.take_append_of_le_length (by omega)]
  · rfl

theorem lt_grownCap (m M : Nat) (hm : m ≤ M) (hpos : 0 < M) : m < grownCap m M := by
  unfold grownCap; split <;> omega

theorem overlay_length (old data : List Byte) :
    (Slice.overlay old data).length = old.length := by
  unfold Slice.overlay
  simp only [List.length_append, List.length_take, List.length_drop]
  omega

theorem growIfFull_eq (p : Slice Byte) (m M : Nat) (hlen : p.len = p.arr.length)
    (hM : p.len = M) :
    growIfFull p (m : Int) (M : Int) =
      some (⟨grownArr p.arr m M, grownCap m M⟩, ((grownCap m M : Nat) : Int), decide (m = M)) := by
  unfold growIfFull grownArr grownCap
  by_cases h : m = M
  · have h1 : ((m : Int) = (M : Int)) := by omega
    have h2 : (0 : Int) ≤ (M : Int) * 2 := by omega
    have h3 : ((M : Int) * 2).toNat = 2 * M := by omega
    have h4 : p.arr.length = M := by omega
    simp only [h1, h, if_true, Slice.make, h2, Option.map_some', Slice.copy, h3, hM]
    simp [h4]
    refine ⟨?_, by omega⟩
    have : min (2 * M) M = M := by omega
    rw [this, ← h4, List.take_length]
    simp
    omega
  · have h1 : ¬ ((m : Int) = (M : Int)) := by omega
    simp [h1, h, hM]
    cases p; simp_all

theorem readLoop_step {σ : Type} (r : Reader σ) (hr : r.Respects) (a fuel : Nat)
    (p : Slice Byte) (m M : Nat) (rs : σ) (calls : List ReadCall)
    (hlen : p.len = p.arr.length) (hM : p.len = M) (hmM : m ≤ M) (hpos : 0 < M) :
    readLoop r (a : Int) (fuel + 1) p (m : Int) (M : Int) rs calls =
      match (r.Read rs ((grownArr p.arr m M).drop m)).err with
      | some e =>
        .returned ⟨((m + (r.Read rs ((grownArr p.arr m M).drop m)).nn.toNat : Nat) : Int) - (a : Int),
          if e = Error.EOF then none else some e,
          ⟨⟨arrAfter r p.arr m M rs, m + (r.Read rs ((grownArr p.arr m M).drop m)).nn.toNat⟩⟩,
          (r.Read rs ((grownArr p.arr m M).drop m)).next,
          calls ++ [callAt r p.arr m M rs]⟩
      | none =>
        readLoop r (a : Int) fuel ⟨arrAfter r p.arr m M rs, grownCap m M⟩
          ((m + (r.Read rs ((grownArr p.arr m M).drop m)).nn.toNat : Nat) : Int)
          ((grownCap m M : Nat) : Int)
          (r.Read rs ((grownArr p.arr m M).drop m)).next
          (calls ++ [callAt r p.arr m M rs]) := by
  have hA : p.arr.length = M := by omega
  have hL := grownArr_length p.arr m M hA
  have hlt := lt_grownCap m M hmM hpos
  have hw : (List.take (grownCap m M - m) (List.drop m (grownArr p.arr m M)))
      = List.drop m (grownArr p.arr m M) := by
    apply List.take_of_length_le
    simp [hL]
  have hc := hr rs ((grownArr p.arr m M).drop m)
  have hwl : ((grownArr p.arr m M).drop m).length = grownCap m M - m := by simp [hL]
  rw [hwl] at hc
  have hd : List.drop (m + (grownCap m M - m)) (grownArr p.arr m M) = [] := by
    apply List.drop_of_length_le
    omega
  have hsf : (0 : Int) ≤ (m : Int) ∧ (m : Int) ≤ ((grownCap m M : Nat) : Int) := by omega
  rw [readLoop, growIfFull_eq p m M hlen hM]
  simp only [Slice.sliceFrom, hsf, and_self, if_true, Int.toNat_ofNat, Slice.elems, hw,
    Slice.storeAt, hd, List.append_nil]
  have hn2 : (m : Int) + (r.Read rs ((grownArr p.arr m M).drop m)).nn
      = ((m + (r.Read rs ((grownArr p.arr m M).drop m)).nn.toNat : Nat) : Int) := by omega
  rw [hn2]
  cases herr : (r.Read rs ((grownArr p.arr m M).drop m)).err with
  | none => simp only [callAt, arrAfter, herr]
  | some e =>
    have hcap : (0 : Int) ≤ ((m + (r.Read rs ((grownArr p.arr m M).drop m)).nn.toNat : Nat) : Int)
        ∧ ((m + (r.Read rs ((grownArr p.arr m M).drop m)).nn.toNat : Nat) : Int)
          ≤ (((Slice.mk (List.take m (grownArr p.arr m M) ++
              Slice.overlay (List.drop m (grownArr p.arr m M))
                (r.Read rs ((grownArr p.arr m M).drop m)).data) (grownCap m M)).cap : Nat) : Int) := by
      simp only [Slice.cap, List.length_append, overlay_length, List.length_take, List.length_drop, hL]
      omega
    simp only [Slice.sliceTo, hcap, and_self, if_true, Int.toNat_ofNat, callAt, arrAfter, herr]

theorem take_append_at (l1 l2 : List Byte) (m j : Nat) (h : l1.length = m) :
    (l1 ++ l2).take (m + j) = l1 ++ l2.take j := by
  subst h
  simp [List.take_append]

theorem arrAfter_length {σ : Type} (r : Reader σ) (arr : List Byte) (m M : Nat) (rs : σ)
    (h : arr.length = M) (hm : m ≤ M) (hpos : 0 < M) :
    (arrAfter r arr m M rs).length = grownCap m M := by
  have hL := grownArr_length arr m M h
  have := lt_grownCap m M hm hpos
  simp only [arrAfter, List.length_append, overlay_length, List.length_take, List.length_drop, hL]
  omega

theorem arrAfter_take {σ : Type} (r : Reader σ) (arr : List Byte) (m M : Nat) (rs : σ)
    (h : arr.length = M) (hm : m ≤ M) (hpos : 0 < M) :
    (arrAfter r arr m M rs).take (m + (r.Read rs ((grownArr arr m M).drop m)).nn.toNat)
      = arr.take m ++ (callAt r arr m M rs).chunk := by
  have hL := grownArr_length arr m M h
  have := lt_grownCap m M hm hpos
  have h1 : ((grownArr arr m M).take m).length = m := by
    simp only [List.length_take, hL]; omega
  simp only [arrAfter, callAt]
  rw [take_append_at _ _ _ _ h1, grownArr_take arr m M h]

theorem callAt_bounds {σ : Type} (r : Reader σ) (hr : r.Respects) (arr : List Byte) (m M : Nat)
    (rs : σ) (h : arr.length = M) (hm : m ≤ M) (hpos : 0 < M) :
    ((callAt r arr m M rs).window.length : Int) = ((grownCap m M : Nat) : Int) - (m : Int) ∧
    0 ≤ (callAt r arr m M rs).nn ∧
    (callAt r arr m M rs).nn ≤ ((callAt r arr m M rs).window.length : Int) ∧
    ((callAt r arr m M rs).chunk.length : Int) = (callAt r arr m M rs).nn := by
  have hL := grownArr_length arr m M h
  have hlt := lt_grownCap m M hm hpos
  have hc := hr rs ((grownArr arr m M).drop m)
  have hwl : ((grownArr arr m M).drop m).length = grownCap m M - m := by simp [hL]
  simp only [callAt, List.length_take, overlay_length, hwl]
  rw [hwl] at hc
  omega

theorem runFacts_single {σ : Type} (r : Reader σ) (hr : r.Respects) (a : Nat) (arr : List Byte)
    (m M : Nat) (rs : σ) (calls : List ReadCall) (e : Error)
    (h : arr.length = M) (ha : a ≤ m) (hm : m ≤ M) (hpos : 0 < M)
    (herr : (r.Read rs ((grownArr arr m M).drop m)).err = some e) :
    RunFacts r a arr m M rs [callAt r arr m M rs]
      ⟨((m + (r.Read rs ((grownArr arr m M).drop m)).nn.toNat : Nat) : Int) - (a : Int),
        if e = Error.EOF then none else some e,
        ⟨⟨arrAfter r arr m M rs, m + (r.Read rs ((grownArr arr m M).drop m)).nn.toNat⟩⟩,
        (r.Read rs ((grownArr arr m M).drop m)).next,
        calls ++ [callAt r arr m M rs]⟩ := by
  have hb := callAt_bounds r hr arr m M rs h hm hpos
  have hlt := lt_grownCap m M hm hpos
  have hL := arrAfter_length r arr m M rs h hm hpos
  have hnn : (callAt r arr m M rs).nn = (r.Read rs ((grownArr arr m M).drop m)).nn := rfl
  have hce : (callAt r arr m M rs).err = some e := herr
  have hcw : (callAt r arr m M rs).window = (grownArr arr m M).drop m := rfl
  have hcn : (callAt r arr m M rs).n = (m : Int) := rfl
  have hcM : (callAt r arr m M rs).nMax = ((grownCap m M : Nat) : Int) := rfl
  have hcg : (callAt r arr m M rs).grew = decide (m = M) := rfl
  rw [hnn] at hb
  refine ⟨by simp, ?_, ?_, ?_, ?_, ?_, ?_, ?_, ?_, ?_, ?_, ?_, ?_⟩
  · simp only [Slice.elems, List.map_cons, List.map_nil, List.flatten_cons, List.flatten_nil,
      List.append_nil]
    exact arrAfter_take r arr m M rs h hm hpos
  · simp only [List.map_cons, List.map_nil, List.sum_cons, List.sum_nil, hnn]; omega
  · simp only [List.map_cons, List.map_nil, List.sum_cons, List.sum_nil, hnn]; omega
  · simp only; omega
  · simp only [Slice.WF, Slice.cap, hL]; omega
  · simp
  · exact ⟨callAt r arr m M rs, e, by simp, hce, rfl⟩
  · simp only [Slice.cap, hL, grownCap, List.filter_cons, List.filter_nil, hcg]
    by_cases hmM : m = M
    · simp [hmM]; omega
    · simp [hmM]
  · simp only [Slice.cap, hL, grownCap]
    split <;> omega
  · intro c hc
    simp only [List.mem_singleton] at hc
    subst hc
    rw [hcn, hcM, hnn]
    omega
  · exact ⟨hcn, hcM, hcg, trivial⟩
  · refine ⟨?_, rfl, rfl, rfl, trivial⟩
    intro h0
    have := hb.1
    rw [h0] at this
    simp at this
    omega

theorem runFacts_cons {σ : Type} (r : Reader σ) (hr : r.Respects) (a : Nat) (arr : List Byte)
    (m M : Nat) (rs : σ) (cs : List ReadCall) (res : ReadFromResult σ)
    (h : arr.length = M) (ha : a ≤ m) (hm : m ≤ M) (hpos : 0 < M)
    (herr : (r.Read rs ((grownArr arr m M).drop m)).err = none)
    (hf : RunFacts r a (arrAfter r arr m M rs)
      (m + (r.Read rs ((grownArr arr m M).drop m)).nn.toNat) (grownCap m M)
      (r.Read rs ((grownArr arr m M).drop m)).next cs res) :
    RunFacts r a arr m M rs (callAt r arr m M rs :: cs) res := by
  have hb := callAt_bounds r hr arr m M rs h hm hpos
  have hlt := lt_grownCap m M hm hpos
  have hnn : (callAt r arr m M rs).nn = (r.Read rs ((grownArr arr m M).drop m)).nn := rfl
  have hce : (callAt r arr m M rs).err = none := herr
  have hcw : (callAt r arr m M rs).window = (grownArr arr m M).drop m := rfl
  have hcn : (callAt r arr m M rs).n = (m : Int) := rfl
  have hcM : (callAt r arr m M rs).nMax = ((grownCap m M : Nat) : Int) := rfl
  have hcg : (callAt r arr m M rs).grew = decide (m = M) := rfl
  rw [hnn] at hb
  obtain ⟨f1, f2, f3, f4, f5, f6, f7, f8, f9, f10, f11, f12, f13⟩ := hf
  refine ⟨by simp, ?_, ?_, ?_, ?_, f6, ?_, ?_, ?_, ?_, ?_, ?_, ?_⟩
  · rw [f2, arrAfter_take r arr m M rs h hm hpos]
    simp
  · rw [f3]; simp only [List.map_cons, List.sum_cons, hnn]; omega
  · rw [f4]; simp only [List.map_cons, List.sum_cons, hnn]; omega
  · omega
  · intro c hc
    rw [List.dropLast_cons_of_ne_nil f1] at hc
    rcases List.mem_cons.mp hc with hc | hc
    · rw [hc]; exact hce
    · exact f7 c hc
  · obtain ⟨c, e, h1, h2, h3⟩ := f8
    refine ⟨c, e, ?_, h2, h3⟩
    rw [List.getLast?_cons, h1]; rfl
  · rw [f9]
    simp only [List.filter_cons, hcg, grownCap]
    by_cases hmM : m = M
    · simp [hmM, pow_succ]; ring
    · simp [hmM]
  · simp only [grownCap] at f10
    split at f10 <;> omega
  · intro c hc
    rcases List.mem_cons.mp hc with hc | hc
    · subst hc
      rw [hcn, hcM, hnn]
      omega
    · exact f11 c hc
  · exact ⟨hcn, hcM, hcg, by rw [hnn]; exact f12⟩
  · refine ⟨?_, rfl, rfl, rfl, f13⟩
    intro h0
    have := hb.1
    rw [hcw] at h0
    rw [hcw, h0] at this
    simp at this
    omega

theorem readLoop_spec {σ : Type} (r : Reader σ) (hr : r.Respects) (a : Nat) :
    ∀ (k fuel : Nat) (p : Slice Byte) (m M : Nat) (rs : σ) (calls : List ReadCall),
      k ≤ fuel → r.ErrorsWithin k rs → p.len = p.arr.length → p.len = M →
      a ≤ m → m ≤ M → 0 < M →
      ∃ res cs, readLoop r (a : Int) fuel p (m : Int) (M : Int) rs calls = .returned res ∧
        res.calls = calls ++ cs ∧ cs.length ≤ k ∧ RunFacts r a p.arr m M rs cs res := by
  intro k
  induction k with
  | zero => intro fuel p m M rs calls _ hk; exact absurd hk (by simp [Reader.ErrorsWithin])
  | succ k ih =>
    intro fuel p m M rs calls hfuel hk hlen hM ha hm hpos
    obtain ⟨fuel, rfl⟩ : ∃ f, fuel = f + 1 := ⟨fuel - 1, by omega⟩
    have hA : p.arr.length = M := by omega
    have hb := callAt_bounds r hr p.arr m M rs hA hm hpos
    have hlt := lt_grownCap m M hm hpos
    rw [readLoop_step r hr a fuel p m M rs calls hlen hM hm hpos]
    cases herr : (r.Read rs ((grownArr p.arr m M).drop m)).err with
    | some e =>
      exact ⟨_, [callAt r p.arr m M rs], rfl, rfl, by simp,
        runFacts_single r hr a p.arr m M rs calls e hA ha hm hpos herr⟩
    | none =>
      have hne : (grownArr p.arr m M).drop m ≠ [] := by
        intro h0
        have := hb.1
        simp only [callAt] at this
        rw [h0] at this
        simp at this
        omega
      have hk2 := hk _ hne herr
      have hnn : (callAt r p.arr m M rs).nn = (r.Read rs ((grownArr p.arr m M).drop m)).nn := rfl
      rw [hnn] at hb
      have hL := arrAfter_length r p.arr m M rs hA hm hpos
      obtain ⟨res, cs, h1, h2, h3, h4⟩ := ih fuel ⟨arrAfter r p.arr m M rs, grownCap m M⟩
        (m + (r.Read rs ((grownArr p.arr m M).drop m)).nn.toNat) (grownCap m M)
        (r.Read rs ((grownArr p.arr m M).drop m)).next (calls ++ [callAt r p.arr m M rs])
        (by omega) hk2 (by simp only [hL]) rfl (by omega) (by omega) (by omega)
      refine ⟨res, callAt r p.arr m M rs :: cs, h1, ?_, ?_, ?_⟩
      · rw [h2]; simp
      · simp; omega
      · exact runFacts_cons r hr a p.arr m M rs cs res hA ha hm hpos herr h4

theorem readFromInit_eq (b : ByteBuffer) :
    readFromInit b.B (b.B.cap : Int) = some (⟨initArr b, initCap b⟩, ((initCap b : Nat) : Int)) := by
  unfold readFromInit initArr initCap
  by_cases h : b.B.cap = 0
  · simp [h, Slice.make]
  · have h1 : ¬ ((b.B.cap : Int) = 0) := by omega
    simp [h, Slice.sliceTo]

theorem initArr_length (b : ByteBuffer) : (initArr b).length = initCap b := by
  unfold initArr initCap
  split
  · simp
  · rfl

theorem initArr_take (b : ByteBuffer) (hb : b.B.WF) : (initArr b).take b.B.len = b.B.elems := by
  unfold initArr Slice.elems
  split
  · next h =>
    have : b.B.len = 0 := by unfold Slice.WF at hb; omega
    simp [this]
  · rfl

theorem len_le_initCap (b : ByteBuffer) (hb : b.B.WF) : b.B.len ≤ initCap b := by
  unfold initCap; unfold Slice.WF at hb
  split <;> omega

theorem initCap_pos (b : ByteBuffer) : 0 < initCap b := by
  unfold initCap
  split <;> omega

/-- The run of `ReadFrom` against a contract-respecting reader that reports an
error within `k` calls: it returns, after at most `k` calls, and the run
facts hold from the initial working array. -/
theorem ReadFrom_spec {σ : Type} (r : Reader σ) (hr : r.Respects) (b : ByteBuffer)
    (hb : b.B.WF) (rs : σ) (k fuel : Nat) (hk : r.ErrorsWithin k rs) (hf : k ≤ fuel) :
    ∃ res, b.ReadFrom r fuel rs = .returned res ∧ res.calls.length ≤ k ∧
      RunFacts r b.B.len (initArr b) b.B.len (initCap b) rs res.calls res := by
  obtain ⟨res, cs, h1, h2, h3, h4⟩ := readLoop_spec r hr b.B.len k fuel ⟨initArr b, initCap b⟩
    b.B.len (initCap b) rs [] hf hk (initArr_length b).symm rfl (Nat.le_refl _)
    (len_le_initCap b hb) (initCap_pos b)
  refine ⟨res, ?_, ?_, ?_⟩
  · unfold ReadFrom
    rw [readFromInit_eq]
    exact h1
  · rw [h2]; simpa using h3
  · rw [h2]; simpa using h4

theorem errorsWithin_of_firstErrorAt {σ : Type} (r : Reader σ) :
    ∀ (k : Nat) (rs : σ), r.FirstErrorAt k rs → r.ErrorsWithin k rs := by
  intro k
  induction k with
  | zero => intro rs h; exact absurd h (by simp [Reader.FirstErrorAt])
  | succ k ih =>
    intro rs h
    cases k with
    | zero =>
      intro w hw he
      exact absurd he (h w hw)
    | succ k =>
      intro w hw _
      exact ih _ (h w hw).2

theorem replay_length {σ : Type} (r : Reader σ) :
    ∀ (cs : List ReadCall) (k : Nat) (rs : σ), r.FirstErrorAt k rs → r.Replay rs cs →
      (∀ c ∈ cs.dropLast, c.err = none) → (∃ c e, cs.getLast? = some c ∧ c.err = some e) →
      cs.length = k := by
  intro cs
  induction cs with
  | nil => intro k rs _ _ _ h; obtain ⟨c, e, h1, _⟩ := h; simp at h1
  | cons c cs ih =>
    intro k rs hk hrep hq hl
    obtain ⟨hw, _, he, _, hrest⟩ := hrep
    cases k with
    | zero => exact absurd hk (by simp [Reader.FirstErrorAt])
    | succ k =>
      cases k with
      | zero =>
        have h1 := hk c.window hw
        cases cs with
        | nil => rfl
        | cons d ds =>
          have := hq c (by simp)
          rw [he] at this
          exact absurd this h1
      | succ k =>
        have h1 := hk c.window hw
        cases cs with
        | nil =>
          obtain ⟨c2, e, h2, h3⟩ := hl
          simp at h2
          subst h2
          rw [he, h1.1] at h3
          exact absurd h3 (by simp)
        | cons d ds =>
          have := ih (k + 1) _ h1.2 hrest
            (by
              intro c2 hc2
              apply hq
              rw [List.dropLast_cons_of_ne_nil (by simp)]
              exact List.mem_cons_of_mem _ hc2)
            (by
              obtain ⟨c2, e, h2, h3⟩ := hl
              refine ⟨c2, e, ?_, h3⟩
              rw [List.getLast?_cons_cons] at h2
              exact h2)
          simp only [List.length_cons] at this ⊢
          omega

/-- Whatever the reader does, a run of the loop that returns has made a last
call that reported an error `e`, no earlier call reported one, and the error
returned is nil for `io.EOF` and `e` otherwise. -/
theorem readLoop_err {σ : Type} (r : Reader σ) (nStart : Int) :
    ∀ (fuel : Nat) (p : Slice Byte) (n nMax : Int) (rs : σ) (calls : List ReadCall)
      (res : ReadFromResult σ),
      readLoop r nStart fuel p n nMax rs calls = .returned res →
      ∃ cs c e, res.calls = calls ++ cs ++ [c] ∧ (∀ d ∈ cs, d.err = none) ∧ c.err = some e ∧
        res.err = if e = Error.EOF then none else some e := by
  intro fuel
  induction fuel with
  | zero => intro p n nMax rs calls res h; simp [readLoop] at h
  | succ fuel ih =>
    intro p n nMax rs calls res h
    rw [readLoop] at h
    split at h
    · exact absurd h (by simp)
    · split at h
      · exact absurd h (by simp)
      · next _ p1 nMax1 grew _ _ w _ =>
        simp only at h
        split at h
        · next e he =>
          split at h
          · exact absurd h (by simp)
          · next bB _ =>
            injection h with h
            subst h
            refine ⟨[], ReadCall.mk n nMax1 grew w.elems (r.Read rs w.elems).nn (r.Read rs w.elems).err
              ((Slice.overlay w.elems (r.Read rs w.elems).data).take (r.Read rs w.elems).nn.toNat), e,
              ?_, by simp, he, rfl⟩
            simp only [List.append_nil]
        · next he =>
          obtain ⟨cs, c, e, h1, h2, h3, h4⟩ := ih _ _ _ _ _ _ h
          refine ⟨ReadCall.mk n nMax1 grew w.elems (r.Read rs w.elems).nn (r.Read rs w.elems).err
            ((Slice.overlay w.elems (r.Read rs w.elems).data).take (r.Read rs w.elems).nn.toNat) :: cs,
            c, e, ?_, ?_, h3, h4⟩
          · rw [h1]; simp
          · intro d hd
            rcases List.mem_cons.mp hd with hd | hd
            · rw [hd]; exact he
            · exact h2 d hd

theorem scriptReader_respects : scriptReader.Respects := by
  intro s w
  cases s with
  | nil => simp [scriptReader]
  | cons x rest =>
    obtain ⟨c, e⟩ := x
    simp only [scriptReader, List.length_take]
    omega

theorem bytesReader_respects : bytesReader.Respects := by
  intro s w
  cases s with
  | nil => simp [bytesReader]
  | cons x rest =>
    simp only [bytesReader, List.length_take]
    omega

theorem bytesReader_errorsWithin : ∀ (k : Nat) (s : List Byte), s.length < k →
    bytesReader.ErrorsWithin k s := by
  intro k
  induction k with
  | zero => intro s h; omega
  | succ k ih =>
    intro s h w hw he
    cases s with
    | nil => simp [bytesReader] at he
    | cons x xs =>
      apply ih
      have : 0 < w.length := List.length_pos.mpr hw
      simp only [bytesReader, List.length_drop, List.length_cons] at h ⊢
      omega

theorem append_len {T : Type} (g : Nat → Nat → Nat) (z : T) (s : Slice T) (p : List T) :
    (Slice.append g z s p).len = s.len + p.length := by
  unfold Slice.append
  split <;> rfl

theorem append_elems {T : Type} (g : Nat → Nat → Nat) (z : T) (s : Slice T) (p : List T) (h : s.WF) :
    (Slice.append g z s p).elems = s.elems ++ p := by
  have hl : (s.arr.take s.len).length = s.len := by
    unfold Slice.WF Slice.cap at h
    simp only [List.length_take]; omega
  have h2 : (s.arr.take s.len ++ p).length = s.len + p.length := by
    simp only [List.length_append, hl]
  unfold Slice.append Slice.elems
  split
  · simp only
    rw [← h2, List.take_left']
    rfl
  · simp only
    rw [← h2, List.take_left']
    rfl

theorem append_wf {T : Type} (g : Nat → Nat → Nat) (z : T) (s : Slice T) (p : List T) (h : s.WF) :
    (Slice.append g z s p).WF := by
  unfold Slice.WF Slice.cap at h
  unfold Slice.append Slice.WF Slice.cap
  split
  · next hfit =>
    simp only [List.length_append, List.length_take, List.length_drop]
    omega
  · simp only [List.length_append, List.length_take, List.length_replicate]
    omega

theorem writeAll_spec {T : Type} [Inhabited T] (g : Nat → Nat → Nat) :
    ∀ (ps : List (List T)) (b : Buffer T), b.B.WF →
      (Buffer.writeAll g b ps).2.B.elems = b.B.elems ++ ps.flatten ∧
      (Buffer.writeAll g b ps).1 = ps.map (fun p => (p.length, none)) ∧
      (Buffer.writeAll g b ps).2.Len = b.Len + ((Buffer.writeAll g b ps).1.map (·.1)).sum ∧
      (Buffer.writeAll g b ps).2.B.WF := by
  intro ps
  induction ps with
  | nil => intro b hb; simp [Buffer.writeAll, hb]
  | cons p ps ih =>
    intro b hb
    have hw : (Buffer.Write g b p).2.B.WF := append_wf g default b.B p hb
    obtain ⟨h1, h2, h3, h4⟩ := ih (Buffer.Write g b p).2 hw
    refine ⟨?_, ?_, ?_, h4⟩
    · simp only [Buffer.writeAll, h1, List.flatten_cons]
      simp only [Buffer.Write, append_elems g default b.B p hb, List.append_assoc]
    · simp only [Buffer.writeAll, h2, List.map_cons]
      rfl
    · simp only [Buffer.writeAll, h3, List.map_cons, List.sum_cons]
      simp only [Buffer.Write, Buffer.Len, append_len]
      omega

/-- A returning run of the loop is exact about its number of iterations: the
calls it added leave the reader in the state reached by answering them, fewer
iterations than calls end out of fuel, and any number of iterations from the
number of calls on gives the same result. -/
theorem readLoop_exact {σ : Type} (r : Reader σ) (hr : r.Respects) (a : Nat) :
    ∀ (fuel : Nat) (p : Slice Byte) (m M : Nat) (rs : σ) (calls : List ReadCall)
      (res : ReadFromResult σ),
      p.len = p.arr.length → p.len = M → m ≤ M → 0 < M →
      readLoop r (a : Int) fuel p (m : Int) (M : Int) rs calls = .returned res →
      ∃ cs, res.calls = calls ++ cs ∧ res.rs = r.after rs cs ∧
        ∀ f, (f < cs.length →
            readLoop r (a : Int) f p (m : Int) (M : Int) rs calls = .outOfFuel) ∧
          (cs.length ≤ f →
            readLoop r (a : Int) f p (m : Int) (M : Int) rs calls = .returned res) := by
  intro fuel
  induction fuel with
  | zero => intro p m M rs calls res _ _ _ _ h; simp [readLoop] at h
  | succ fuel ih =>
    intro p m M rs calls res hlen hM hm hpos h
    have hA : p.arr.length = M := by omega
    have hb := callAt_bounds r hr p.arr m M rs hA hm hpos
    have hlt := lt_grownCap m M hm hpos
    have hnn : (callAt r p.arr m M rs).nn = (r.Read rs ((grownArr p.arr m M).drop m)).nn := rfl
    rw [hnn] at hb
    have hL := arrAfter_length r p.arr m M rs hA hm hpos
    rw [readLoop_step r hr a fuel p m M rs calls hlen hM hm hpos] at h
    cases herr : (r.Read rs ((grownArr p.arr m M).drop m)).err with
    | some e =>
      rw [herr] at h
      simp only at h
      injection h with h
      subst h
      refine ⟨[callAt r p.arr m M rs], rfl, rfl, ?_⟩
      intro f
      constructor
      · intro hf
        have : f = 0 := by simpa using hf
        subst this
        rfl
      · intro hf
        obtain ⟨f, rfl⟩ : ∃ j, f = j + 1 := ⟨f - 1, by simp at hf; omega⟩
        rw [readLoop_step r hr a f p m M rs calls hlen hM hm hpos, herr]
    | none =>
      rw [herr] at h
      simp only at h
      obtain ⟨cs, h1, h2, h3⟩ := ih ⟨arrAfter r p.arr m M rs, grownCap m M⟩
        (m + (r.Read rs ((grownArr p.arr m M).drop m)).nn.toNat) (grownCap m M)
        (r.Read rs ((grownArr p.arr m M).drop m)).next (calls ++ [callAt r p.arr m M rs]) res
        (by simp only [hL]) rfl (by omega) (by omega) h
      refine ⟨callAt r p.arr m M rs :: cs, ?_, h2, ?_⟩
      · rw [h1]; simp
      · intro f
        constructor
        · intro hf
          cases f with
          | zero => rfl
          | succ f =>
            rw [readLoop_step r hr a f p m M rs calls hlen hM hm hpos, herr]
            exact (h3 f).1 (by simp at hf; omega)
        · intro hf
          obtain ⟨f, rfl⟩ : ∃ j, f = j + 1 := ⟨f - 1, by simp at hf; omega⟩
          rw [readLoop_step r hr a f p m M rs calls hlen hM hm hpos, herr]
          exact (h3 f).2 (by simp at hf; omega)

theorem ReadFrom_exact {σ : Type} (r : Reader σ) (hr : r.Respects) (b : ByteBuffer)
    (hb : b.B.WF) (rs : σ) (fuel : Nat) (res : ReadFromResult σ)
    (h : b.ReadFrom r fuel rs = .returned res) :
    res.rs = r.after rs res.calls ∧
    ∀ f, (f < res.calls.length → b.ReadFrom r f rs = .outOfFuel) ∧
      (res.calls.length ≤ f → b.ReadFrom r f rs = .returned res) := by
  unfold ReadFrom at h ⊢
  rw [readFromInit_eq] at h ⊢
  obtain ⟨cs, h1, h2, h3⟩ := readLoop_exact r hr b.B.len fuel ⟨initArr b, initCap b⟩ b.B.len
    (initCap b) rs [] res (initArr_length b).symm rfl (len_le_initCap b hb) (initCap_pos b) h
  have hcs : res.calls = cs := by simpa using h1
  rw [hcs]
  exact ⟨h2, h3⟩

theorem replay_last {σ : Type} (r : Reader σ) :
    ∀ (cs : List ReadCall) (rs : σ) (c : ReadCall), r.Replay rs (cs ++ [c]) →
      c.nn = (r.Read (r.after rs cs) c.window).nn ∧
      c.err = (r.Read (r.after rs cs) c.window).err ∧
      c.chunk = (Slice.overlay c.window (r.Read (r.after rs cs) c.window).data).take
        c.nn.toNat := by
  intro cs
  induction cs with
  | nil =>
    intro rs c h
    obtain ⟨_, h1, h2, h3, _⟩ := h
    exact ⟨h1, h2, h3⟩
  | cons d ds ih =>
    intro rs c h
    obtain ⟨_, _, _, _, h5⟩ := h
    exact ih _ c h5

theorem calls_split_last (cs : List ReadCall) (c : ReadCall) (h : cs.getLast? = some c) :
    cs = cs.dropLast ++ [c] := by
  have hne : cs ≠ [] := by
    intro h0
    rw [h0] at h
    simp at h
  have h1 := List.dropLast_append_getLast hne
  rw [List.getLast?_eq_getLast _ hne] at h
  injection h with h
  rw [h] at h1
  exact h1.symm

theorem scriptReader_firstErrorAt :
    ∀ (pre : List (List Byte × Option Error)) (c : List Byte) (e : Error),
      (∀ x ∈ pre, x.2 = none) →
      scriptReader.FirstErrorAt (pre.length + 1) (pre ++ [(c, some e)]) := by
  intro pre
  induction pre with
  | nil => intro c e _ w _; simp [scriptReader]
  | cons x pre ih =>
    intro c e h w _
    obtain ⟨c0, e0⟩ := x
    have h0 : e0 = none := h (c0, e0) (by simp)
    subst h0
    exact ⟨rfl, ih c e (fun y hy => h y (List.mem_cons_of_mem _ hy))⟩

/-- C1: `ReadFrom` appends everything the reader delivers and keeps what was
there.  For every well-formed buffer (contents `xs`, any capacity) and every
contract-respecting reader that reports an error within some number of
calls, `ReadFrom` returns; the calls it made are the answers of the reader,
in order, up to and including the first one that reports a non-nil error;
and the buffer contents are `xs` followed by the chunks those calls
delivered, in order, whatever the number of calls, the chunking and the
doublings.  When the reader's first error comes at call `j` for every
sequence of windows, the number of calls is `j`. -/
theorem ReadFrom_appends_all_delivered {σ : Type} (r : Reader σ) (hr : r.Respects)
    (b : ByteBuffer) (hb : b.B.WF) (rs : σ) (k fuel : Nat) (hk : r.ErrorsWithin k rs)
    (hf : k ≤ fuel) :
    ∃ res, b.ReadFrom r fuel rs = .returned res ∧
      1 ≤ res.calls.length ∧ res.calls.length ≤ k ∧
      r.Replay rs res.calls ∧ (∀ c ∈ res.calls.dropLast, c.err = none) ∧
      (∃ c e, res.calls.getLast? = some c ∧ c.err = some e) ∧
      res.b.Bytes.elems = b.Bytes.elems ++ (res.calls.map (·.chunk)).flatten ∧
      (∀ j, r.FirstErrorAt j rs → res.calls.length = j) := by
  obtain ⟨res, h1, hle, hfacts⟩ := ReadFrom_spec r hr b hb rs k fuel hk hf
  have hlast : ∃ c e, res.calls.getLast? = some c ∧ c.err = some e := by
    obtain ⟨c, e, h2, h3, _⟩ := hfacts.last
    exact ⟨c, e, h2, h3⟩
  refine ⟨res, h1, List.length_pos.mpr hfacts.nonempty, hle, hfacts.replay, hfacts.quiet,
    hlast, ?_, ?_⟩
  · rw [ByteBuffer.Bytes, ByteBuffer.Bytes, hfacts.elems, initArr_take b hb]
  · intro j hj
    exact replay_length r res.calls j rs hj hfacts.replay hfacts.quiet hlast

/-- Witness for C1: the full buffer `[9,9]` of capacity 2 reads the three
bytes of a byte reader, whose number of calls depends on the windows it is
offered, across two doublings. -/
theorem ReadFrom_appends_all_delivered_witness :
    bytesReader.Respects ∧ (⟨⟨[9, 9], 2⟩⟩ : ByteBuffer).B.WF ∧
    bytesReader.ErrorsWithin 4 [1, 2, 3] ∧
    (∃ res, ByteBuffer.ReadFrom bytesReader 4 ⟨⟨[9, 9], 2⟩⟩ [1, 2, 3] = .returned res ∧
      bytesReader.Replay [1, 2, 3] res.calls ∧
      (∀ c ∈ res.calls.dropLast, c.err = none) ∧
      (∃ c e, res.calls.getLast? = some c ∧ c.err = some e) ∧
      res.b.Bytes.elems = (ByteBuffer.Bytes ⟨⟨[9, 9], 2⟩⟩).elems ++
        (res.calls.map (·.chunk)).flatten) :=
  have hk := bytesReader_errorsWithin 4 [1, 2, 3] (by decide)
  have h := ReadFrom_appends_all_delivered bytesReader bytesReader_respects ⟨⟨[9, 9], 2⟩⟩
    (by decide) [1, 2, 3] 4 4 hk (by decide)
  ⟨bytesReader_respects, by decide, hk,
    h.elim fun res hres => ⟨res, hres.1, hres.2.2.2.1, hres.2.2.2.2.1, hres.2.2.2.2.2.1,
      hres.2.2.2.2.2.2.1⟩⟩

/-- The specification's example: the buffer `[9,9]` reads `[1,2,3]` to a clean
end-of-stream; the contents are `[9,9,1,2,3]` and the count is 3. -/
theorem ReadFrom_example_prepopulated : (match ByteBuffer.ReadFrom scriptReader 2 ⟨⟨[9, 9], 2⟩⟩
        [([1, 2], none), ([3], some Error.EOF)] with
      | .returned res => (res.n, res.err, res.b.B.elems, res.b.B.cap)
      | _ => (0, none, [], 0)) = (3, none, [9, 9, 1, 2, 3], 8) := by decide

/-- The specification's example: the empty buffer reads `[1,2,3]` to a clean
end-of-stream; count 3, nil error, contents `[1,2,3]`, capacity 64. -/
theorem ReadFrom_example_empty : (match ByteBuffer.ReadFrom scriptReader 1 ⟨⟨[], 0⟩⟩
        [([1, 2, 3], some Error.EOF)] with
      | .returned res => (res.n, res.err, res.b.B.elems, res.b.B.cap)
      | _ => (0, none, [], 0)) = (3, none, [1, 2, 3], 64) := by decide

/-- C2: the count returned by `ReadFrom` is the number of bytes newly
appended.  For every well-formed buffer and every contract-respecting reader
that reports an error within some number of calls, `ReadFrom` returns, the
returned count is the sum of the counts returned by the calls of `Read`, and
it is `Len()` after the call minus `Len()` before it. -/
theorem ReadFrom_count_is_appended {σ : Type} (r : Reader σ) (hr : r.Respects)
    (b : ByteBuffer) (hb : b.B.WF) (rs : σ) (k fuel : Nat) (hk : r.ErrorsWithin k rs)
    (hf : k ≤ fuel) :
    ∃ res, b.ReadFrom r fuel rs = .returned res ∧
      res.n = (res.calls.map (·.nn)).sum ∧
      res.n = (res.b.Len : Int) - (b.Len : Int) := by
  obtain ⟨res, h1, _, hfacts⟩ := ReadFrom_spec r hr b hb rs k fuel hk hf
  refine ⟨res, h1, ?_, ?_⟩
  · rw [hfacts.count]; omega
  · rw [hfacts.count, Buffer.Len, Buffer.Len, hfacts.len]

/-- Witness for C2: the buffer `[9,9]` with one spare byte reads the three
bytes of a byte reader. -/
theorem ReadFrom_count_is_appended_witness :
    bytesReader.Respects ∧ (⟨⟨[9, 9, 7], 2⟩⟩ : ByteBuffer).B.WF ∧
    bytesReader.ErrorsWithin 4 [1, 2, 3] ∧
    (∃ res, ByteBuffer.ReadFrom bytesReader 4 ⟨⟨[9, 9, 7], 2⟩⟩ [1, 2, 3] = .returned res ∧
      res.n = (res.calls.map (·.nn)).sum ∧
      res.n = (res.b.Len : Int) - (Buffer.Len (⟨⟨[9, 9, 7], 2⟩⟩ : ByteBuffer) : Int)) :=
  ⟨bytesReader_respects, by decide, bytesReader_errorsWithin 4 [1, 2, 3] (by decide),
    ReadFrom_count_is_appended bytesReader bytesReader_respects ⟨⟨[9, 9, 7], 2⟩⟩ (by decide)
      [1, 2, 3] 4 4 (bytesReader_errorsWithin 4 [1, 2, 3] (by decide)) (by decide)⟩

/-- C3 (amended): `ReadFrom` translates end-of-stream to success and passes
every other error through.  For every well-formed buffer and every
contract-respecting reader that reports an error within some number of
calls: `ReadFrom` returns; the calls it made are the answers of the reader in
order; the last of them is the first on which the reader reported a non-nil
error `e`; and the error `ReadFrom` returns is nil exactly when `e` is
`io.EOF`, and `e` itself otherwise. -/
theorem ReadFrom_error_translation {σ : Type} (r : Reader σ) (hr : r.Respects)
    (b : ByteBuffer) (hb : b.B.WF) (rs : σ) (k fuel : Nat) (hk : r.ErrorsWithin k rs)
    (hf : k ≤ fuel) :
    ∃ res cs c e, b.ReadFrom r fuel rs = .returned res ∧ res.calls = cs ++ [c] ∧
      r.Replay rs res.calls ∧ (∀ d ∈ cs, d.err = none) ∧
      (r.Read (r.after rs cs) c.window).err = some e ∧ c.err = some e ∧
      (res.err = none ↔ e = Error.EOF) ∧ (e ≠ Error.EOF → res.err = some e) := by
  obtain ⟨res, h1, _, hfacts⟩ := ReadFrom_spec r hr b hb rs k fuel hk hf
  obtain ⟨c, e, h2, h3, h4⟩ := hfacts.last
  have hsplit := calls_split_last res.calls c h2
  have hrep := hfacts.replay
  have hlastcall := replay_last r res.calls.dropLast rs c (by rw [← hsplit]; exact hrep)
  refine ⟨res, res.calls.dropLast, c, e, h1, hsplit, hrep, hfacts.quiet, ?_, h3, ?_, ?_⟩
  · rw [← hlastcall.2.1]; exact h3
  · rw [h4]
    by_cases he : e = Error.EOF <;> simp [he]
  · intro he
    rw [h4]
    simp [he]

/-- Witness for C3: a reader that delivers `[1,2]` with a nil error and then
`[3]` together with the error number 7. -/
theorem ReadFrom_error_translation_witness :
    scriptReader.Respects ∧ (⟨⟨[9, 9], 2⟩⟩ : ByteBuffer).B.WF ∧
    scriptReader.ErrorsWithin 2 [([1, 2], none), ([3], some (Error.other 7))] ∧
    (∃ res cs c e, ByteBuffer.ReadFrom scriptReader 2 ⟨⟨[9, 9], 2⟩⟩
        [([1, 2], none), ([3], some (Error.other 7))] = .returned res ∧
      res.calls = cs ++ [c] ∧
      (scriptReader.Read
        (scriptReader.after [([1, 2], none), ([3], some (Error.other 7))] cs) c.window).err
        = some e ∧
      (res.err = none ↔ e = Error.EOF) ∧ (e ≠ Error.EOF → res.err = some e)) :=
  have hk := errorsWithin_of_firstErrorAt scriptReader 2 _
    (scriptReader_firstErrorAt [([1, 2], none)] [3] (Error.other 7) (by simp))
  have h := ReadFrom_error_translation scriptReader scriptReader_respects
    ⟨⟨[9, 9], 2⟩⟩ (by decide) [([1, 2], none), ([3], some (Error.other 7))] 2 2 hk (by decide)
  ⟨scriptReader_respects, by decide, hk,
    h.elim fun res h => h.elim fun cs h => h.elim fun c h => h.elim fun e h =>
      ⟨res, cs, c, e, h.1, h.2.1, h.2.2.2.2.1, h.2.2.2.2.2.2.1, h.2.2.2.2.2.2.2⟩⟩

/-- Counterexample for C3 as stated for every reader: the reader reports the
error number 7 on its first call, together with a count one above the length
of the window; `ReadFrom` then panics at `p[:n]` and returns no error at
all, however many iterations it is given. -/
theorem ReadFrom_error_translation_counterexample :
    (∀ w, (overCountReader.Read () w).err = some (Error.other 7)) ∧
    (∀ fuel, ByteBuffer.ReadFrom overCountReader (fuel + 1) ⟨⟨[], 0⟩⟩ () = .panicked) ∧
    ¬ (∀ fuel, ∃ res, ByteBuffer.ReadFrom overCountReader (fuel + 1) ⟨⟨[], 0⟩⟩ () = .returned res ∧
        res.err = some (Error.other 7)) := by
  have hp : ∀ fuel, ByteBuffer.ReadFrom overCountReader (fuel + 1) ⟨⟨[], 0⟩⟩ () = .panicked :=
    fun _ => rfl
  refine ⟨fun _ => rfl, hp, ?_⟩
  intro h
  obtain ⟨res, h1, _⟩ := h 0
  rw [hp 0] at h1
  exact absurd h1 (by simp)

/-- The specification's example: a source that errors after producing `[1,2]`;
count 2, that error, contents `[1,2]`. -/
theorem ReadFrom_example_error : (match ByteBuffer.ReadFrom scriptReader 1 ⟨⟨[], 0⟩⟩
        [([1, 2], some (Error.other 7))] with
      | .returned res => (res.n, res.err, res.b.B.elems)
      | _ => (0, none, [])) = (2, some (Error.other 7), [1, 2]) := by decide

/-- C4: `Write` appends and never loses earlier data.  For every well-formed
buffer with contents `xs`, every growth policy and every sequence of slices
`p1, ..., pk`, after the calls `Write(p1)`, ..., `Write(pk)` the contents are
`xs ++ p1 ++ ... ++ pk`, call `i` returned `(len(pi), nil)`, and `Len()` is
`len(xs)` plus the sum of the returned counts; starting from a just-Reset or
an empty buffer, the contents are `p1 ++ ... ++ pk` and `Len()` is the sum of
the returned counts. -/
theorem Write_appends_keeps_earlier {T : Type} [Inhabited T] (g : Nat → Nat → Nat)
    (b : Buffer T) (hb : b.B.WF) (ps : List (List T)) :
    (Buffer.writeAll g b ps).2.B.elems = b.B.elems ++ ps.flatten ∧
    (Buffer.writeAll g b ps).1 = ps.map (fun p => (p.length, none)) ∧
    (Buffer.writeAll g b ps).2.Len = b.Len + ((Buffer.writeAll g b ps).1.map (·.1)).sum ∧
    (Buffer.writeAll g b.Reset ps).2.B.elems = ps.flatten ∧
    (Buffer.writeAll g b.Reset ps).2.Len = ((Buffer.writeAll g b.Reset ps).1.map (·.1)).sum ∧
    (Buffer.writeAll g ⟨Slice.nil⟩ ps).2.B.elems = ps.flatten ∧
    (Buffer.writeAll g ⟨Slice.nil⟩ ps).2.Len
      = ((Buffer.writeAll g (⟨Slice.nil⟩ : Buffer T) ps).1.map (·.1)).sum := by
  obtain ⟨h1, h2, h3, _⟩ := writeAll_spec g ps b hb
  have hr : (Buffer.Reset b).B.WF := by
    simp [Buffer.Reset, Slice.empty, Slice.WF]
  have hn : (⟨Slice.nil⟩ : Buffer T).B.WF := by
    simp [Slice.nil, Slice.WF]
  obtain ⟨r1, _, r3, _⟩ := writeAll_spec g ps (Buffer.Reset b) hr
  obtain ⟨n1, _, n3, _⟩ := writeAll_spec g ps (⟨Slice.nil⟩ : Buffer T) hn
  refine ⟨h1, h2, h3, ?_, ?_, ?_, ?_⟩
  · rw [r1]; simp [Buffer.Reset, Slice.empty, Slice.elems]
  · rw [r3]; simp [Buffer.Reset, Slice.empty, Buffer.Len]
  · rw [n1]; simp [Slice.nil, Slice.elems]
  · rw [n3]; simp [Slice.nil, Buffer.Len]

/-- Witness for C4: three writes on the buffer `[9,9]` of capacity 3, the
second of which reallocates. -/
theorem Write_appends_keeps_earlier_witness :
    (⟨⟨[9, 9, 7], 2⟩⟩ : ByteBuffer).B.WF ∧
    (Buffer.writeAll doubling (⟨⟨[9, 9, 7], 2⟩⟩ : ByteBuffer) [[1], [2, 3], []]).2.B.elems
      = [9, 9, 1, 2, 3] ∧
    (Buffer.writeAll doubling (⟨⟨[9, 9, 7], 2⟩⟩ : ByteBuffer) [[1], [2, 3], []]).1
      = [(1, none), (2, none), (0, none)] ∧
    (Buffer.writeAll doubling (⟨⟨[9, 9, 7], 2⟩⟩ : ByteBuffer) [[1], [2, 3], []]).2.Len = 5 :=
  have h := Write_appends_keeps_earlier doubling (⟨⟨[9, 9, 7], 2⟩⟩ : ByteBuffer) (by decide)
    [[1], [2, 3], []]
  ⟨by decide, h.1, h.2.1, h.2.2.1⟩

/-- C5: `Set` followed by `Bytes` is a round trip.  For every buffer in any
prior state, every growth policy and every sequence `x` (the empty one
included), after `Set(x)` the elements of `Bytes()` are exactly `x` and
`Len()` is `len(x)`. -/
theorem Set_Bytes_roundtrip (g : Nat → Nat → Nat) (b : ByteBuffer) (x : List Byte) :
    (ByteBuffer.Bytes (Buffer.Set g b x)).elems = x ∧ Buffer.Len (Buffer.Set g b x) = x.length := by
  have hw : (b.B.empty).WF := by simp [Slice.empty, Slice.WF]
  constructor
  · rw [ByteBuffer.Bytes, Buffer.Set, append_elems g default b.B.empty x hw]
    simp [Slice.empty, Slice.elems]
  · rw [Buffer.Len, Buffer.Set, append_len]
    simp [Slice.empty]

/-- C6: `Set` is `Reset` followed by `Write`.  For every buffer state, every
growth policy and every sequence `p`, the buffer after `Set(p)` (backing
array, length and capacity) is the buffer after `Reset()` and then
`Write(p)`. -/
theorem Set_eq_Reset_then_Write {T : Type} [Inhabited T] (g : Nat → Nat → Nat) (b : Buffer T)
    (p : List T) :
    Buffer.Set g b p = Buffer.SetSpec g b p ∧
    (Buffer.Set g b p).B.elems = (Buffer.SetSpec g b p).B.elems ∧
    (Buffer.Set g b p).Len = (Buffer.SetSpec g b p).Len ∧
    (Buffer.Set g b p).B.cap = (Buffer.SetSpec g b p).B.cap := by
  have h : Buffer.Set g b p = Buffer.SetSpec g b p := rfl
  exact ⟨h, by rw [h], by rw [h], by rw [h]⟩

/-- C7: `Reset` empties the buffer, keeps its capacity, and is idempotent.
For every buffer state, after `Reset()` the length is 0, there are no
elements, the capacity (and the backing array) is the one before the call,
and any further number of `Reset()` calls leaves that state unchanged. -/
theorem Reset_empties_keeps_cap_idempotent {T : Type} (b : Buffer T) :
    (Buffer.Reset b).Len = 0 ∧ (Buffer.Reset b).B.elems = [] ∧
    (Buffer.Reset b).B.cap = b.B.cap ∧ (Buffer.Reset b).B.arr = b.B.arr ∧
    ∀ n : Nat, Buffer.Reset^[n + 1] b = Buffer.Reset b := by
  refine ⟨rfl, by simp [Buffer.Reset, Slice.empty, Slice.elems], rfl, rfl, ?_⟩
  intro n
  induction n with
  | zero => rfl
  | succ n ih =>
    rw [Function.iterate_succ_apply', ih]
    rfl

/-- C8 (amended): `WriteTo` hands the sink the buffer's slice once and does
not itself touch the buffer.  For every buffer with contents `xs` and every
writer in any state: the writer ends in the state one call `Write(b.B)`
leaves it in, and the count and error of that call are returned unchanged,
also for an error or a short write; and when the sink, as the `io.Writer`
contract demands, stores nothing through the slice and calls no method of the
buffer during that call, the buffer (backing array, contents, length,
capacity) is as before. -/
theorem WriteTo_one_call_buffer_unchanged {τ : Type} (g : Nat → Nat → Nat) (w : Writer τ)
    (b : ByteBuffer) (ws : τ) :
    (ByteBuffer.WriteTo g w b ws).1 = ((w.Write ws b.B).n, (w.Write ws b.B).err) ∧
    (ByteBuffer.WriteTo g w b ws).2.2 = (w.Write ws b.B).next ∧
    ((w.Write ws b.B).actions = [] →
      (ByteBuffer.WriteTo g w b ws).2.1 = b ∧
      (ByteBuffer.WriteTo g w b ws).2.1.B.elems = b.B.elems ∧
      (ByteBuffer.WriteTo g w b ws).2.1.Len = b.Len ∧
      (ByteBuffer.WriteTo g w b ws).2.1.B.cap = b.B.cap) := by
  refine ⟨rfl, rfl, ?_⟩
  intro h
  have hb : (ByteBuffer.WriteTo g w b ws).2.1 = b := by
    simp only [ByteBuffer.WriteTo, sinkEffect, h, List.foldl_nil]
  exact ⟨hb, by rw [hb], by rw [hb], by rw [hb]⟩

/-- Witness for C8: a sink that accepts one byte of `[1,2,3]` and reports a
short write. -/
theorem WriteTo_one_call_buffer_unchanged_witness :
    ((limitWriter 1 (Error.other 5)).Write [] (⟨⟨[1, 2, 3, 0], 3⟩⟩ : ByteBuffer).B).actions = [] ∧
    (ByteBuffer.WriteTo doubling (limitWriter 1 (Error.other 5)) ⟨⟨[1, 2, 3, 0], 3⟩⟩ []).1
      = (1, some (Error.other 5)) ∧
    (ByteBuffer.WriteTo doubling (limitWriter 1 (Error.other 5)) ⟨⟨[1, 2, 3, 0], 3⟩⟩ []).2.2
      = [1] ∧
    (ByteBuffer.WriteTo doubling (limitWriter 1 (Error.other 5)) ⟨⟨[1, 2, 3, 0], 3⟩⟩ []).2.1
      = ⟨⟨[1, 2, 3, 0], 3⟩⟩ :=
  have h := WriteTo_one_call_buffer_unchanged doubling (limitWriter 1 (Error.other 5))
    ⟨⟨[1, 2, 3, 0], 3⟩⟩ []
  ⟨rfl, h.1, h.2.1, (h.2.2 rfl).1⟩

/-- Counterexample for C8 as stated for every writer: with the buffer as its
own sink, `bb.WriteTo(bb)`, the promoted `Write` appends the contents to the
buffer, whose length doubles; and a sink that stores through the slice it is
given changes the contents. -/
theorem WriteTo_buffer_unchanged_counterexample :
    ((ByteBuffer.WriteTo doubling selfWriter ⟨⟨[1, 2, 3], 3⟩⟩ ()).2.1.B.elems
        = [1, 2, 3, 1, 2, 3] ∧
      Buffer.Len (ByteBuffer.WriteTo doubling selfWriter ⟨⟨[1, 2, 3], 3⟩⟩ ()).2.1 = 6 ∧
      Buffer.Len (⟨⟨[1, 2, 3], 3⟩⟩ : ByteBuffer) = 3) ∧
    ((ByteBuffer.WriteTo doubling scribbleWriter ⟨⟨[1, 2, 3], 3⟩⟩ ()).2.1.B.elems = [0, 2, 3] ∧
      (⟨⟨[1, 2, 3], 3⟩⟩ : ByteBuffer).B.elems = [1, 2, 3]) := by
  decide

/-- C9: the byte convenience writers are infallible special cases of `Write`.
For every buffer state, growth policy, byte `c` and string `s`:
`WriteByte(c)` returns nil and leaves the buffer as `Write([c])` does,
`WriteString(s)` returns `(len(s), nil)` and leaves the buffer as
`Write(bytes of s)` does, and none of `Write`, `WriteByte`, `WriteString`
returns a non-nil error. -/
theorem byte_writers_are_Write (g : Nat → Nat → Nat) (b : ByteBuffer) (c : Byte)
    (s : GoString) (p : List Byte) :
    ByteBuffer.WriteByte g b c = ByteBuffer.WriteByteSpec g b c ∧
    (ByteBuffer.WriteByte g b c).1 = none ∧
    (ByteBuffer.WriteByte g b c).2 = (Buffer.Write g b [c]).2 ∧
    ByteBuffer.WriteString g b s = ByteBuffer.WriteStringSpec g b s ∧
    (ByteBuffer.WriteString g b s).1 = (s.length, none) ∧
    (ByteBuffer.WriteString g b s).2 = (Buffer.Write g b s.bytes).2 ∧
    (Buffer.Write g b p).1.2 = none :=
  ⟨rfl, rfl, rfl, rfl, rfl, rfl, rfl⟩

/-- C10: `SetString` followed by `String` is a round trip.  For every buffer
in any prior state, every growth policy and every string `s`, after
`SetString(s)` the result of `String()` is `s`, the elements of `Bytes()` are
the bytes of `s` and `Len()` is `len(s)`; and for every buffer `String()` is
the string whose bytes are the elements of `Bytes()`. -/
theorem SetString_String_roundtrip (g : Nat → Nat → Nat) (b : ByteBuffer) (s : GoString) :
    ByteBuffer.String (ByteBuffer.SetString g b s) = s ∧
    (ByteBuffer.Bytes (ByteBuffer.SetString g b s)).elems = s.bytes ∧
    Buffer.Len (ByteBuffer.SetString g b s) = s.length ∧
    (ByteBuffer.String b).bytes = (ByteBuffer.Bytes b).elems := by
  have hw : (b.B.empty).WF := by simp [Slice.empty, Slice.WF]
  have he : (ByteBuffer.SetString g b s).B.elems = s.bytes := by
    rw [ByteBuffer.SetString, append_elems g 0 b.B.empty s.bytes hw]
    simp [Slice.empty, Slice.elems]
  refine ⟨?_, he, ?_, rfl⟩
  · rw [ByteBuffer.String, he]
  · rw [Buffer.Len, ByteBuffer.SetString, append_len]
    simp [Slice.empty, GoString.length]

theorem append_cap_ge {T : Type} (g : Nat → Nat → Nat) (z : T) (s : Slice T) (p : List T) :
    s.cap ≤ (Slice.append g z s p).cap := by
  unfold Slice.append Slice.cap
  split
  · next hfit =>
    simp only [List.length_append, List.length_take, List.length_drop]
    omega
  · next hfit =>
    simp only [List.length_append, List.length_take, List.length_replicate]
    omega

theorem append_cap_fit {T : Type} (g : Nat → Nat → Nat) (z : T) (s : Slice T) (p : List T)
    (h : s.len + p.length ≤ s.cap) : (Slice.append g z s p).cap = s.cap := by
  unfold Slice.append
  rw [if_pos h]
  unfold Slice.cap at h ⊢
  simp only [List.length_append, List.length_take, List.length_drop]
  omega

theorem empty_wf {T : Type} (s : Slice T) : s.empty.WF := by
  simp [Slice.empty, Slice.WF]

theorem len_eq_elems_length {T : Type} (s : Slice T) (h : s.WF) : s.len = s.elems.length := by
  unfold Slice.WF Slice.cap at h
  simp only [Slice.elems, List.length_take]
  omega

theorem applyOp_wf (g : Nat → Nat → Nat) (b : ByteBuffer) (op : Op) (h : b.B.WF) :
    (applyOp g b op).B.WF := by
  cases op with
  | Write p => exact append_wf g default b.B p h
  | WriteByte c => exact append_wf g 0 b.B [c] h
  | WriteString s => exact append_wf g 0 b.B s.bytes h
  | Set p => exact append_wf g default b.B.empty p (empty_wf b.B)
  | SetString s => exact append_wf g 0 b.B.empty s.bytes (empty_wf b.B)

theorem applyOp_elems (g1 g2 : Nat → Nat → Nat) (b1 b2 : ByteBuffer) (op : Op)
    (h1 : b1.B.WF) (h2 : b2.B.WF) (he : b1.B.elems = b2.B.elems) :
    (applyOp g1 b1 op).B.elems = (applyOp g2 b2 op).B.elems := by
  have e1 : (b1.B.empty).elems = [] := by simp [Slice.empty, Slice.elems]
  have e2 : (b2.B.empty).elems = [] := by simp [Slice.empty, Slice.elems]
  cases op with
  | Write p =>
    simp only [applyOp, Buffer.Write, append_elems g1 default b1.B p h1,
      append_elems g2 default b2.B p h2, he]
  | WriteByte c =>
    simp only [applyOp, ByteBuffer.WriteByte, append_elems g1 0 b1.B [c] h1,
      append_elems g2 0 b2.B [c] h2, he]
  | WriteString s =>
    simp only [applyOp, ByteBuffer.WriteString, append_elems g1 0 b1.B s.bytes h1,
      append_elems g2 0 b2.B s.bytes h2, he]
  | Set p =>
    simp only [applyOp, Buffer.Set, append_elems g1 default b1.B.empty p (empty_wf _),
      append_elems g2 default b2.B.empty p (empty_wf _), e1, e2]
  | SetString s =>
    simp only [applyOp, ByteBuffer.SetString, append_elems g1 0 b1.B.empty s.bytes (empty_wf _),
      append_elems g2 0 b2.B.empty s.bytes (empty_wf _), e1, e2]

theorem applyOps_elems (g1 g2 : Nat → Nat → Nat) :
    ∀ (ops : List Op) (b1 b2 : ByteBuffer), b1.B.WF → b2.B.WF → b1.B.elems = b2.B.elems →
      (applyOps g1 b1 ops).B.elems = (applyOps g2 b2 ops).B.elems ∧
      (applyOps g1 b1 ops).B.WF ∧ (applyOps g2 b2 ops).B.WF := by
  intro ops
  induction ops with
  | nil => intro b1 b2 h1 h2 he; exact ⟨he, h1, h2⟩
  | cons op ops ih =>
    intro b1 b2 h1 h2 he
    exact ih (applyOp g1 b1 op) (applyOp g2 b2 op) (applyOp_wf g1 b1 op h1)
      (applyOp_wf g2 b2 op h2) (applyOp_elems g1 g2 b1 b2 op h1 h2 he)

theorem reset_applyOps (g1 g2 : Nat → Nat → Nat) (b1 b2 : ByteBuffer) (ops : List Op) :
    (ByteBuffer.Bytes (applyOps g1 (Buffer.Reset b1) ops)).elems
      = (ByteBuffer.Bytes (applyOps g2 (Buffer.Reset b2) ops)).elems ∧
    Buffer.Len (applyOps g1 (Buffer.Reset b1) ops)
      = Buffer.Len (applyOps g2 (Buffer.Reset b2) ops) := by
  obtain ⟨h1, h2, h3⟩ := applyOps_elems g1 g2 ops (Buffer.Reset b1) (Buffer.Reset b2)
    (empty_wf b1.B) (empty_wf b2.B) (by simp [Buffer.Reset, Slice.empty, Slice.elems])
  refine ⟨h1, ?_⟩
  rw [Buffer.Len, Buffer.Len, len_eq_elems_length _ h2, len_eq_elems_length _ h3, h1]

/-- C11: a Reset buffer does not leak its previous contents.  For every two
buffers in arbitrary states (contents, capacities, growth policies of their
allocations) and every sequence of `Write`, `WriteByte`, `WriteString`, `Set`
and `SetString` calls: when both are Reset and the sequence is applied to
each, the elements of `Bytes()` and the value of `Len()` agree; and the same
holds when each buffer first went through any number of Reset-and-reuse
rounds of its own. -/
theorem Reset_does_not_leak (g1 g2 : Nat → Nat → Nat) (b1 b2 : ByteBuffer) (ops : List Op) :
    ((ByteBuffer.Bytes (applyOps g1 (Buffer.Reset b1) ops)).elems
        = (ByteBuffer.Bytes (applyOps g2 (Buffer.Reset b2) ops)).elems ∧
      Buffer.Len (applyOps g1 (Buffer.Reset b1) ops)
        = Buffer.Len (applyOps g2 (Buffer.Reset b2) ops)) ∧
    ∀ rounds1 rounds2 : List (List Op),
      (ByteBuffer.Bytes (reuseRounds g1 b1 (rounds1 ++ [ops]))).elems
        = (ByteBuffer.Bytes (reuseRounds g2 b2 (rounds2 ++ [ops]))).elems ∧
      Buffer.Len (reuseRounds g1 b1 (rounds1 ++ [ops]))
        = Buffer.Len (reuseRounds g2 b2 (rounds2 ++ [ops])) := by
  refine ⟨reset_applyOps g1 g2 b1 b2 ops, ?_⟩
  intro rounds1 rounds2
  simp only [reuseRounds, List.foldl_append, List.foldl_cons, List.foldl_nil]
  exact reset_applyOps g1 g2 _ _ ops

/-- A concrete reuse: whatever the buffer held, after `Reset`, `WriteString`
and `WriteByte` it holds exactly the new bytes. -/
theorem Reset_reuse_example :
    (ByteBuffer.Bytes (applyOps doubling (Buffer.Reset ⟨⟨[9, 9, 7, 7], 3⟩⟩)
        [Op.WriteString ⟨[1, 2]⟩, Op.WriteByte 3])).elems = [1, 2, 3] ∧
    (ByteBuffer.Bytes (applyOps doubling (Buffer.Reset ⟨⟨[], 0⟩⟩)
        [Op.WriteString ⟨[1, 2]⟩, Op.WriteByte 3])).elems = [1, 2, 3] := by
  decide

/-- C13: storage is reused after `Reset`.  For every buffer with capacity `c`,
every growth policy and every sequence `p` with `len(p) ≤ c`, `Reset()`
followed by `Write(p)`, and likewise `Set(p)`, leaves the capacity equal to
`c`: the elements are stored in place in the existing backing array, whose
remaining positions keep their values. -/
theorem Reset_then_Write_reuses_storage {T : Type} [Inhabited T] (g : Nat → Nat → Nat)
    (b : Buffer T) (p : List T) (h : p.length ≤ b.B.cap) :
    (Buffer.Write g (Buffer.Reset b) p).2.B.cap = b.B.cap ∧
    (Buffer.Set g b p).B.cap = b.B.cap ∧
    (Buffer.Write g (Buffer.Reset b) p).2.B.arr = p ++ b.B.arr.drop p.length ∧
    (Buffer.Set g b p).B.arr = p ++ b.B.arr.drop p.length := by
  have hfit : b.B.empty.len + p.length ≤ b.B.empty.cap := by
    simp only [Slice.empty, Slice.cap]
    unfold Slice.cap at h
    omega
  have hc := append_cap_fit g default b.B.empty p hfit
  have ha : (Slice.append g default b.B.empty p).arr = p ++ b.B.arr.drop p.length := by
    unfold Slice.append
    rw [if_pos hfit]
    simp [Slice.empty]
  exact ⟨hc, hc, ha, ha⟩

/-- Witness for C13: a buffer of capacity 4 holding `[9,9,7]` is Reset and
takes `[1,2]` in place. -/
theorem Reset_then_Write_reuses_storage_witness :
    [(1 : Byte), 2].length ≤ (⟨⟨[9, 9, 7, 7], 3⟩⟩ : ByteBuffer).B.cap ∧
    (Buffer.Write doubling (Buffer.Reset (⟨⟨[9, 9, 7, 7], 3⟩⟩ : ByteBuffer)) [1, 2]).2.B.cap = 4 ∧
    (Buffer.Set doubling (⟨⟨[9, 9, 7, 7], 3⟩⟩ : ByteBuffer) [1, 2]).B.cap = 4 :=
  have h := Reset_then_Write_reuses_storage doubling (⟨⟨[9, 9, 7, 7], 3⟩⟩ : ByteBuffer) [1, 2]
    (by decide)
  ⟨by decide, h.1, h.2.1⟩

theorem readLoop_safe {σ : Type} (r : Reader σ) (hr : r.Respects) (a : Nat) :
    ∀ (fuel : Nat) (p : Slice Byte) (m M : Nat) (rs : σ) (calls : List ReadCall),
      p.len = p.arr.length → p.len = M → a ≤ m → m ≤ M → 0 < M →
      readLoop r (a : Int) fuel p (m : Int) (M : Int) rs calls = .outOfFuel ∨
      ∃ res cs, readLoop r (a : Int) fuel p (m : Int) (M : Int) rs calls = .returned res ∧
        res.calls = calls ++ cs ∧ RunFacts r a p.arr m M rs cs res := by
  intro fuel
  induction fuel with
  | zero => intro p m M rs calls _ _ _ _ _; exact Or.inl rfl
  | succ fuel ih =>
    intro p m M rs calls hlen hM ha hm hpos
    have hA : p.arr.length = M := by omega
    have hb := callAt_bounds r hr p.arr m M rs hA hm hpos
    have hlt := lt_grownCap m M hm hpos
    rw [readLoop_step r hr a fuel p m M rs calls hlen hM hm hpos]
    cases herr : (r.Read rs ((grownArr p.arr m M).drop m)).err with
    | some e =>
      exact Or.inr ⟨_, [callAt r p.arr m M rs], rfl, rfl,
        runFacts_single r hr a p.arr m M rs calls e hA ha hm hpos herr⟩
    | none =>
      have hnn : (callAt r p.arr m M rs).nn = (r.Read rs ((grownArr p.arr m M).drop m)).nn := rfl
      rw [hnn] at hb
      have hL := arrAfter_length r p.arr m M rs hA hm hpos
      rcases ih ⟨arrAfter r p.arr m M rs, grownCap m M⟩
        (m + (r.Read rs ((grownArr p.arr m M).drop m)).nn.toNat) (grownCap m M)
        (r.Read rs ((grownArr p.arr m M).drop m)).next (calls ++ [callAt r p.arr m M rs])
        (by simp only [hL]) rfl (by omega) (by omega) (by omega) with h | ⟨res, cs, h1, h2, h4⟩
      · exact Or.inl h
      · refine Or.inr ⟨res, callAt r p.arr m M rs :: cs, h1, ?_, ?_⟩
        · rw [h2]; simp
        · exact runFacts_cons r hr a p.arr m M rs cs res hA ha hm hpos herr h4

/-- Against a contract-respecting reader, terminating or not, a run of
`ReadFrom` on a well-formed buffer either is still in its loop when the fuel
ends or returns with the run facts; it never panics. -/
theorem ReadFrom_safe {σ : Type} (r : Reader σ) (hr : r.Respects) (b : ByteBuffer)
    (hb : b.B.WF) (rs : σ) (fuel : Nat) :
    b.ReadFrom r fuel rs = .outOfFuel ∨
    ∃ res, b.ReadFrom r fuel rs = .returned res ∧
      RunFacts r b.B.len (initArr b) b.B.len (initCap b) rs res.calls res := by
  unfold ReadFrom
  rw [readFromInit_eq]
  rcases readLoop_safe r hr b.B.len fuel ⟨initArr b, initCap b⟩ b.B.len (initCap b) rs []
    (initArr_length b).symm rfl (Nat.le_refl _) (len_le_initCap b hb) (initCap_pos b)
    with h | ⟨res, cs, h1, h2, h4⟩
  · exact Or.inl h
  · refine Or.inr ⟨res, h1, ?_⟩
    rw [h2]; simpa using h4

theorem readLoop_needs_fuel {σ : Type} (r : Reader σ) (hr : r.Respects) (a : Nat) :
    ∀ (fuel k : Nat) (p : Slice Byte) (m M : Nat) (rs : σ) (calls : List ReadCall),
      fuel < k → r.FirstErrorAt k rs → p.len = p.arr.length → p.len = M → a ≤ m → m ≤ M →
      0 < M → readLoop r (a : Int) fuel p (m : Int) (M : Int) rs calls = .outOfFuel := by
  intro fuel
  induction fuel with
  | zero => intro k p m M rs calls _ _ _ _ _ _ _; rfl
  | succ fuel ih =>
    intro k p m M rs calls hk hfe hlen hM ha hm hpos
    obtain ⟨k, rfl⟩ : ∃ j, k = j + 2 := ⟨k - 2, by omega⟩
    have hA : p.arr.length = M := by omega
    have hb := callAt_bounds r hr p.arr m M rs hA hm hpos
    have hlt := lt_grownCap m M hm hpos
    have hne : (grownArr p.arr m M).drop m ≠ [] := by
      intro h0
      have := hb.1
      simp only [callAt] at this
      rw [h0] at this
      simp at this
      omega
    have hstep := hfe _ hne
    have hnn : (callAt r p.arr m M rs).nn = (r.Read rs ((grownArr p.arr m M).drop m)).nn := rfl
    rw [hnn] at hb
    have hL := arrAfter_length r p.arr m M rs hA hm hpos
    rw [readLoop_step r hr a fuel p m M rs calls hlen hM hm hpos, hstep.1]
    exact ih (k + 1) ⟨arrAfter r p.arr m M rs, grownCap m M⟩
      (m + (r.Read rs ((grownArr p.arr m M).drop m)).nn.toNat) (grownCap m M)
      (r.Read rs ((grownArr p.arr m M).drop m)).next (calls ++ [callAt r p.arr m M rs])
      (by omega) hstep.2 (by simp only [hL]) rfl (by omega) (by omega) (by omega)

theorem ReadFrom_needs_fuel {σ : Type} (r : Reader σ) (hr : r.Respects) (b : ByteBuffer)
    (hb : b.B.WF) (rs : σ) (k fuel : Nat) (hk : r.FirstErrorAt k rs) (hf : fuel < k) :
    b.ReadFrom r fuel rs = .outOfFuel := by
  unfold ReadFrom
  rw [readFromInit_eq]
  exact readLoop_needs_fuel r hr b.B.len fuel k ⟨initArr b, initCap b⟩ b.B.len (initCap b) rs []
    hf hk (initArr_length b).symm rfl (Nat.le_refl _) (len_le_initCap b hb) (initCap_pos b)

theorem initCap_ge (b : ByteBuffer) : b.B.cap ≤ initCap b := by
  unfold initCap
  split <;> omega

theorem sinkStep_wf_cap (g : Nat → Nat → Nat) (st : ByteBuffer × Bool) (act : SinkAction)
    (h : st.1.B.WF) :
    (sinkStep g st act).1.B.WF ∧ st.1.B.cap ≤ (sinkStep g st act).1.B.cap := by
  obtain ⟨b, shared⟩ := st
  cases act with
  | store off data =>
    unfold sinkStep
    by_cases hs : shared = true
    · simp only [hs, if_true]
      have hlen : (b.B.arr.take off ++ Slice.overlay (b.B.arr.drop off) data).length
          = b.B.arr.length := by
        simp only [List.length_append, List.length_take, overlay_length, List.length_drop]
        omega
      unfold Slice.WF Slice.cap at h ⊢
      simp only [hlen]
      exact ⟨h, Nat.le_refl _⟩
    · simp only [hs]
      exact ⟨h, Nat.le_refl _⟩
  | call op =>
    refine ⟨applyOp_wf g b op h, ?_⟩
    cases op with
    | Write p => exact append_cap_ge g default b.B p
    | WriteByte c => exact append_cap_ge g 0 b.B [c]
    | WriteString s => exact append_cap_ge g 0 b.B s.bytes
    | Set p => exact append_cap_ge g default b.B.empty p
    | SetString s => exact append_cap_ge g 0 b.B.empty s.bytes
  | reset => exact ⟨empty_wf b.B, Nat.le_refl _⟩

theorem sinkEffect_wf_cap (g : Nat → Nat → Nat) (actions : List SinkAction) :
    ∀ (st : ByteBuffer × Bool), st.1.B.WF →
      (actions.foldl (sinkStep g) st).1.B.WF ∧
      st.1.B.cap ≤ (actions.foldl (sinkStep g) st).1.B.cap := by
  induction actions with
  | nil => intro st h; exact ⟨h, Nat.le_refl _⟩
  | cons act actions ih =>
    intro st h
    obtain ⟨h1, h2⟩ := sinkStep_wf_cap g st act h
    obtain ⟨h3, h4⟩ := ih (sinkStep g st act) h1
    exact ⟨h3, Nat.le_trans h2 h4⟩

/-- C12: length never exceeds capacity and capacity never shrinks.  For every
buffer state with `len ≤ cap`, after each of `Write`, `WriteByte`,
`WriteString`, `Set`, `SetString`, `Reset`, `ReadFrom` (against a
contract-respecting reader that reports an error within `k` calls) and
`WriteTo` (against every writer, whatever it stores through the slice and
whichever methods of the buffer it calls), the state again has `len ≤ cap`
and its capacity is at least the capacity before; `Len`, `Bytes` and `String`
only read the buffer, and the slice `Bytes` returns is the field `B` itself. -/
theorem len_le_cap_and_cap_never_shrinks {σ τ : Type} (g : Nat → Nat → Nat) (b : ByteBuffer)
    (hb : b.B.WF) (p : List Byte) (c : Byte) (s : GoString) (r : Reader σ) (hr : r.Respects)
    (rs : σ) (k fuel : Nat) (hk : r.ErrorsWithin k rs) (hf : k ≤ fuel) (w : Writer τ) (ws : τ) :
    ((Buffer.Write g b p).2.B.WF ∧ b.B.cap ≤ (Buffer.Write g b p).2.B.cap) ∧
    ((ByteBuffer.WriteByte g b c).2.B.WF ∧ b.B.cap ≤ (ByteBuffer.WriteByte g b c).2.B.cap) ∧
    ((ByteBuffer.WriteString g b s).2.B.WF ∧
      b.B.cap ≤ (ByteBuffer.WriteString g b s).2.B.cap) ∧
    ((Buffer.Set g b p).B.WF ∧ b.B.cap ≤ (Buffer.Set g b p).B.cap) ∧
    ((ByteBuffer.SetString g b s).B.WF ∧ b.B.cap ≤ (ByteBuffer.SetString g b s).B.cap) ∧
    ((Buffer.Reset b).B.WF ∧ b.B.cap ≤ (Buffer.Reset b).B.cap) ∧
    (∃ res, b.ReadFrom r fuel rs = .returned res ∧ res.b.B.WF ∧ b.B.cap ≤ res.b.B.cap) ∧
    ((ByteBuffer.WriteTo g w b ws).2.1.B.WF ∧
      b.B.cap ≤ (ByteBuffer.WriteTo g w b ws).2.1.B.cap) ∧
    ((ByteBuffer.Bytes b).WF ∧ (ByteBuffer.Bytes b).cap = b.B.cap) := by
  refine ⟨⟨append_wf g default b.B p hb, append_cap_ge g default b.B p⟩,
    ⟨append_wf g 0 b.B [c] hb, append_cap_ge g 0 b.B [c]⟩,
    ⟨append_wf g 0 b.B s.bytes hb, append_cap_ge g 0 b.B s.bytes⟩,
    ⟨append_wf g default b.B.empty p (empty_wf b.B), append_cap_ge g default b.B.empty p⟩,
    ⟨append_wf g 0 b.B.empty s.bytes (empty_wf b.B), append_cap_ge g 0 b.B.empty s.bytes⟩,
    ⟨empty_wf b.B, Nat.le_refl _⟩, ?_,
    sinkEffect_wf_cap g (w.Write ws b.B).actions (b, true) hb, ⟨hb, rfl⟩⟩
  obtain ⟨res, h1, _, hfacts⟩ := ReadFrom_spec r hr b hb rs k fuel hk hf
  refine ⟨res, h1, hfacts.wf, ?_⟩
  rw [hfacts.cap]
  exact Nat.le_trans (initCap_ge b) (Nat.le_mul_of_pos_right _ (Nat.pos_pow_of_pos _ (by decide)))

/-- Witness for C12: the buffer `[9,9]` of capacity 3 under a reallocating
`Write`, a `ReadFrom` of three bytes, and a `WriteTo` into itself. -/
theorem len_le_cap_and_cap_never_shrinks_witness :
    (⟨⟨[9, 9, 7], 2⟩⟩ : ByteBuffer).B.WF ∧ bytesReader.Respects ∧
    bytesReader.ErrorsWithin 4 [1, 2, 3] ∧
    ((Buffer.Write doubling (⟨⟨[9, 9, 7], 2⟩⟩ : ByteBuffer) [1, 2]).2.B.WF ∧
      (⟨⟨[9, 9, 7], 2⟩⟩ : ByteBuffer).B.cap
        ≤ (Buffer.Write doubling (⟨⟨[9, 9, 7], 2⟩⟩ : ByteBuffer) [1, 2]).2.B.cap) ∧
    (∃ res, ByteBuffer.ReadFrom bytesReader 4 ⟨⟨[9, 9, 7], 2⟩⟩ [1, 2, 3] = .returned res ∧
      res.b.B.WF ∧ (⟨⟨[9, 9, 7], 2⟩⟩ : ByteBuffer).B.cap ≤ res.b.B.cap) ∧
    ((ByteBuffer.WriteTo doubling selfWriter ⟨⟨[9, 9, 7], 2⟩⟩ ()).2.1.B.WF ∧
      (⟨⟨[9, 9, 7], 2⟩⟩ : ByteBuffer).B.cap
        ≤ (ByteBuffer.WriteTo doubling selfWriter ⟨⟨[9, 9, 7], 2⟩⟩ ()).2.1.B.cap) :=
  have h := len_le_cap_and_cap_never_shrinks doubling (⟨⟨[9, 9, 7], 2⟩⟩ : ByteBuffer) (by decide)
    [1, 2] 3 ⟨[4]⟩ bytesReader bytesReader_respects [1, 2, 3] 4 4
    (bytesReader_errorsWithin 4 [1, 2, 3] (by decide)) (by decide) selfWriter ()
  ⟨by decide, bytesReader_respects, bytesReader_errorsWithin 4 [1, 2, 3] (by decide),
    h.1, h.2.2.2.2.2.2.1, h.2.2.2.2.2.2.2.1⟩

/-- C14: `ReadFrom` grows by doubling from 64 or from the existing capacity.
For every well-formed buffer with capacity `c` and every contract-respecting
reader that reports an error within `k` calls, `ReadFrom` returns with
capacity `c0 * 2^d`, where `c0` is 64 if `c = 0` and `c` otherwise, and `d`
counts the recorded iterations that doubled; the recorded iterations are
chained from write position `Len()` and capacity `c0`, each doubling exactly
when it finds the write position equal to the working capacity.  On a
zero-capacity buffer, against a reader that answers `(0, io.EOF)` at once,
`ReadFrom` returns `(0, nil)` with length 0 and capacity 64. -/
theorem ReadFrom_capacity_doubles {σ : Type} (r : Reader σ) (hr : r.Respects)
    (b : ByteBuffer) (hb : b.B.WF) (rs : σ) (k fuel : Nat) (hk : r.ErrorsWithin k rs)
    (hf : k ≤ fuel) :
    ∃ res, b.ReadFrom r fuel rs = .returned res ∧
      res.b.B.cap = initCap b * 2 ^ (res.calls.filter (·.grew)).length ∧
      Chain b.B.len (initCap b) res.calls ∧
      (b.B.cap = 0 →
        (∀ w, (r.Read rs w).nn = 0 ∧ (r.Read rs w).err = some Error.EOF) →
        res.n = 0 ∧ res.err = none ∧ res.b.Len = 0 ∧ res.b.B.cap = 64) := by
  obtain ⟨res, h1, _, hfacts⟩ := ReadFrom_spec r hr b hb rs k fuel hk hf
  refine ⟨res, h1, hfacts.cap, hfacts.chain, ?_⟩
  intro hc himm
  have hlen : b.B.len = 0 := by unfold Slice.WF at hb; omega
  have hinit : initCap b = 64 := by simp [initCap, hc]
  obtain ⟨hne, _, hcount, hl, _, _, hquiet, hlast, hcap, _, _, hchain, hrep⟩ := hfacts
  cases hcs : res.calls with
  | nil => exact absurd hcs hne
  | cons c cs =>
    rw [hcs] at hquiet hlast hcap hchain hrep hcount hl
    obtain ⟨_, hnn, herr, _, _⟩ := hrep
    have hcnn : c.nn = 0 := by rw [hnn]; exact (himm c.window).1
    have hcerr : c.err = some Error.EOF := by rw [herr]; exact (himm c.window).2
    have hnil : cs = [] := by
      cases cs with
      | nil => rfl
      | cons d ds =>
        have := hquiet c (by simp)
        rw [hcerr] at this
        exact absurd this (by simp)
    subst hnil
    obtain ⟨c2, e, h2, h3, h4⟩ := hlast
    simp only [List.getLast?_singleton, Option.some.injEq] at h2
    subst h2
    rw [hcerr] at h3
    have he : e = Error.EOF := by injection h3 with h3; exact h3.symm
    obtain ⟨_, _, hgrew, _⟩ := hchain
    have hg : c.grew = false := by
      rw [hgrew, hlen, hinit]; decide
    simp only [List.map_cons, List.map_nil, List.sum_cons, List.sum_nil, hcnn, hlen] at hcount hl
    refine ⟨by rw [hcount]; simp, by rw [h4, he]; simp, ?_, ?_⟩
    · unfold Buffer.Len; omega
    · rw [hcap, hinit]; simp [hg]

/-- Witness for C14: the buffer `[9,9]` of capacity 3 reads five bytes across
two doublings. -/
theorem ReadFrom_capacity_doubles_witness :
    bytesReader.Respects ∧ (⟨⟨[9, 9, 7], 2⟩⟩ : ByteBuffer).B.WF ∧
    bytesReader.ErrorsWithin 6 [1, 2, 3, 4, 5] ∧
    (∃ res, ByteBuffer.ReadFrom bytesReader 6 ⟨⟨[9, 9, 7], 2⟩⟩ [1, 2, 3, 4, 5] = .returned res ∧
      res.b.B.cap = initCap ⟨⟨[9, 9, 7], 2⟩⟩ * 2 ^ (res.calls.filter (·.grew)).length ∧
      Chain (⟨⟨[9, 9, 7], 2⟩⟩ : ByteBuffer).B.len (initCap ⟨⟨[9, 9, 7], 2⟩⟩) res.calls) :=
  have h := ReadFrom_capacity_doubles bytesReader bytesReader_respects ⟨⟨[9, 9, 7], 2⟩⟩
    (by decide) [1, 2, 3, 4, 5] 6 6 (bytesReader_errorsWithin 6 [1, 2, 3, 4, 5] (by decide))
    (by decide)
  ⟨bytesReader_respects, by decide, bytesReader_errorsWithin 6 [1, 2, 3, 4, 5] (by decide),
    h.elim fun res hres => ⟨res, hres.1, hres.2.1, hres.2.2.1⟩⟩

/-- The capacities of the example runs: 3 doubles twice to 12; a zero-capacity
buffer at immediate end-of-stream gets capacity 64. -/
theorem ReadFrom_example_capacity :
    (match ByteBuffer.ReadFrom bytesReader 6 ⟨⟨[9, 9, 7], 2⟩⟩ [1, 2, 3, 4, 5] with
      | .returned res => (res.b.B.cap, (res.calls.filter (·.grew)).length, res.b.B.len)
      | _ => (0, 0, 0)) = (12, 2, 7) ∧
    (match ByteBuffer.ReadFrom bytesReader 1 ⟨⟨[], 0⟩⟩ [] with
      | .returned res => (res.n, res.err, res.b.B.len, res.b.B.cap)
      | _ => (1, none, 1, 0)) = (0, none, 0, 64) := by
  decide

/-- C15: bytes delivered together with the error are kept and counted.  For
every well-formed buffer and every contract-respecting reader that reports an
error within `k` calls, `ReadFrom` returns; its last call `c` is the one that
reported the error, the `nn` bytes that call delivered (whatever `nn` is) are
the end of the buffer contents, after the earlier contents and the chunks of
the earlier calls, and `nn` is part of the returned count. -/
theorem ReadFrom_keeps_bytes_of_failing_call {σ : Type} (r : Reader σ) (hr : r.Respects)
    (b : ByteBuffer) (hb : b.B.WF) (rs : σ) (k fuel : Nat) (hk : r.ErrorsWithin k rs)
    (hf : k ≤ fuel) :
    ∃ res cs c e, b.ReadFrom r fuel rs = .returned res ∧ res.calls = cs ++ [c] ∧
      r.Replay rs res.calls ∧ (∀ d ∈ cs, d.err = none) ∧ c.err = some e ∧
      (c.chunk.length : Int) = c.nn ∧
      res.b.Bytes.elems = b.Bytes.elems ++ (cs.map (·.chunk)).flatten ++ c.chunk ∧
      res.n = (cs.map (·.nn)).sum + c.nn ∧
      (res.b.Len : Int) = (b.Len : Int) + (cs.map (·.nn)).sum + c.nn := by
  obtain ⟨res, h1, _, hfacts⟩ := ReadFrom_spec r hr b hb rs k fuel hk hf
  obtain ⟨c, e, h2, h3, _⟩ := hfacts.last
  have hsplit := calls_split_last res.calls c h2
  have hmem : c ∈ res.calls := by rw [hsplit]; simp
  refine ⟨res, res.calls.dropLast, c, e, h1, hsplit, hfacts.replay, hfacts.quiet, h3,
    (hfacts.bounds c hmem).2.2.2.2.2, ?_, ?_, ?_⟩
  · rw [ByteBuffer.Bytes, ByteBuffer.Bytes, hfacts.elems, initArr_take b hb]
    conv_lhs => rw [hsplit]
    simp
  · rw [hfacts.count]
    conv_lhs => rw [hsplit]
    simp only [List.map_append, List.map_cons, List.map_nil, List.sum_append, List.sum_cons,
      List.sum_nil]
    omega
  · rw [Buffer.Len, Buffer.Len, hfacts.len]
    conv_lhs => rw [hsplit]
    simp only [List.map_append, List.map_cons, List.map_nil, List.sum_append, List.sum_cons,
      List.sum_nil]
    omega

/-- Witness for C15: the failing call delivers `[3]` together with the error
number 7, after a call that delivered `[1,2]`. -/
theorem ReadFrom_keeps_bytes_of_failing_call_witness :
    scriptReader.Respects ∧ (⟨⟨[9, 9], 2⟩⟩ : ByteBuffer).B.WF ∧
    scriptReader.ErrorsWithin 2 [([1, 2], none), ([3], some (Error.other 7))] ∧
    (∃ res cs c e, ByteBuffer.ReadFrom scriptReader 2 ⟨⟨[9, 9], 2⟩⟩
        [([1, 2], none), ([3], some (Error.other 7))] = .returned res ∧
      res.calls = cs ++ [c] ∧ c.err = some e ∧ (c.chunk.length : Int) = c.nn ∧
      res.b.Bytes.elems = (ByteBuffer.Bytes ⟨⟨[9, 9], 2⟩⟩).elems ++
        (cs.map (·.chunk)).flatten ++ c.chunk ∧
      res.n = (cs.map (·.nn)).sum + c.nn) :=
  have hk := errorsWithin_of_firstErrorAt scriptReader 2 _
    (scriptReader_firstErrorAt [([1, 2], none)] [3] (Error.other 7) (by simp))
  have h := ReadFrom_keeps_bytes_of_failing_call scriptReader scriptReader_respects
    ⟨⟨[9, 9], 2⟩⟩ (by decide) [([1, 2], none), ([3], some (Error.other 7))] 2 2 hk (by decide)
  ⟨scriptReader_respects, by decide, hk,
    h.elim fun res h => h.elim fun cs h => h.elim fun c h => h.elim fun e h =>
      ⟨res, cs, c, e, h.1, h.2.1, h.2.2.2.2.1, h.2.2.2.2.2.1, h.2.2.2.2.2.2.1,
        h.2.2.2.2.2.2.2.1⟩⟩

/-- The example of C15 evaluated: count 3, the error number 7, contents
`[9,9,1,2,3]`. -/
theorem ReadFrom_example_failing_call :
    (match ByteBuffer.ReadFrom scriptReader 2 ⟨⟨[9, 9], 2⟩⟩
        [([1, 2], none), ([3], some (Error.other 7))] with
      | .returned res => (res.n, res.err, res.b.B.elems)
      | _ => (0, none, [])) = (3, some (Error.other 7), [9, 9, 1, 2, 3]) := by
  decide

/-- C16: `ReadFrom` stops at the first error.  For every well-formed buffer
and every contract-respecting reader that reports an error within some
number of calls: `ReadFrom` returns, and with `k` the number of calls of
`Read` it made, those calls are the answers of the reader in order, the
first `k - 1` of them returned a nil error and call number `k` a non-nil
one; the reader is left in the state after exactly those `k` calls; with
fewer than `k` iterations the loop has not ended, and from `k` iterations on
the result is the same.  When the reader's first error comes at call `j` for
every sequence of windows, `k = j`. -/
theorem ReadFrom_stops_at_first_error {σ : Type} (r : Reader σ) (hr : r.Respects)
    (b : ByteBuffer) (hb : b.B.WF) (rs : σ) (bound fuel : Nat) (hk : r.ErrorsWithin bound rs)
    (hf : bound ≤ fuel) :
    ∃ res, b.ReadFrom r fuel rs = .returned res ∧
      1 ≤ res.calls.length ∧ res.calls.length ≤ bound ∧
      r.Replay rs res.calls ∧ (∀ c ∈ res.calls.dropLast, c.err = none) ∧
      (∃ c e, res.calls.getLast? = some c ∧ c.err = some e) ∧
      res.rs = r.after rs res.calls ∧
      (∀ less, less < res.calls.length → b.ReadFrom r less rs = .outOfFuel) ∧
      (∀ more, res.calls.length ≤ more → b.ReadFrom r more rs = .returned res) ∧
      (∀ j, r.FirstErrorAt j rs → res.calls.length = j) := by
  obtain ⟨res, h1, hle, hfacts⟩ := ReadFrom_spec r hr b hb rs bound fuel hk hf
  have hlast : ∃ c e, res.calls.getLast? = some c ∧ c.err = some e := by
    obtain ⟨c, e, h2, h3, _⟩ := hfacts.last
    exact ⟨c, e, h2, h3⟩
  obtain ⟨hrs, hex⟩ := ReadFrom_exact r hr b hb rs fuel res h1
  exact ⟨res, h1, List.length_pos.mpr hfacts.nonempty, hle, hfacts.replay, hfacts.quiet, hlast,
    hrs, fun less hless => (hex less).1 hless, fun more hmore => (hex more).2 hmore,
    fun j hj => replay_length r res.calls j rs hj hfacts.replay hfacts.quiet hlast⟩

/-- Witness for C16: a byte reader over three bytes, on the full buffer
`[9,9]` of capacity 2, is called three times; two iterations are not enough. -/
theorem ReadFrom_stops_at_first_error_witness :
    bytesReader.Respects ∧ (⟨⟨[9, 9], 2⟩⟩ : ByteBuffer).B.WF ∧
    bytesReader.ErrorsWithin 4 [1, 2, 3] ∧
    (∃ res, ByteBuffer.ReadFrom bytesReader 7 ⟨⟨[9, 9], 2⟩⟩ [1, 2, 3] = .returned res ∧
      res.calls.length = 3 ∧ res.rs = bytesReader.after [1, 2, 3] res.calls ∧
      ByteBuffer.ReadFrom bytesReader 2 ⟨⟨[9, 9], 2⟩⟩ [1, 2, 3] = .outOfFuel ∧
      ByteBuffer.ReadFrom bytesReader 3 ⟨⟨[9, 9], 2⟩⟩ [1, 2, 3] = .returned res) :=
  have hk := bytesReader_errorsWithin 4 [1, 2, 3] (by decide)
  have h := ReadFrom_stops_at_first_error bytesReader bytesReader_respects ⟨⟨[9, 9], 2⟩⟩
    (by decide) [1, 2, 3] 4 7 hk (by decide)
  ⟨bytesReader_respects, by decide, hk,
    h.elim fun res hres =>
      have hlen : res.calls.length = 3 := by
        have h7 : ByteBuffer.ReadFrom bytesReader 7 ⟨⟨[9, 9], 2⟩⟩ [1, 2, 3] = .returned res :=
          hres.1
        have hev : (match ByteBuffer.ReadFrom bytesReader 7 ⟨⟨[9, 9], 2⟩⟩ [1, 2, 3] with
          | .returned x => x.calls.length
          | _ => 0) = 3 := by decide
        rw [h7] at hev
        exact hev
      ⟨res, hres.1, hlen, hres.2.2.2.2.2.2.1,
        hres.2.2.2.2.2.2.2.1 2 (by omega), hres.2.2.2.2.2.2.2.2.1 3 (by omega)⟩⟩

/-- C17: `ReadFrom` never offers the reader an empty window and never slices
out of range.  For every well-formed buffer and every contract-respecting
reader, terminating or not: no run of `ReadFrom`, of any number of
iterations, panics; and in every run that returns, each call of `Read` was
made at a write position `n` with `nStart ≤ n < nMax`, on the window `p[n:]`
of `nMax - n ≥ 1` bytes, and left `n + nn ≤ nMax`, and the slice assigned to
`b.B` has `len ≤ cap`. -/
theorem ReadFrom_window_nonempty_in_bounds {σ : Type} (r : Reader σ) (hr : r.Respects)
    (b : ByteBuffer) (hb : b.B.WF) (rs : σ) (fuel : Nat) :
    b.ReadFrom r fuel rs ≠ .panicked ∧
    ∀ res, b.ReadFrom r fuel rs = .returned res →
      res.b.B.WF ∧
      ∀ c ∈ res.calls, (b.B.len : Int) ≤ c.n ∧ c.n < c.nMax ∧
        (c.window.length : Int) = c.nMax - c.n ∧ c.window ≠ [] ∧
        0 ≤ c.nn ∧ c.n + c.nn ≤ c.nMax := by
  rcases ReadFrom_safe r hr b hb rs fuel with h | ⟨res, h1, hfacts⟩
  · rw [h]
    exact ⟨by simp, fun res hres => by simp at hres⟩
  · rw [h1]
    refine ⟨by simp, ?_⟩
    intro res2 hres
    injection hres with hres
    subst hres
    refine ⟨hfacts.wf, ?_⟩
    intro c hc
    obtain ⟨b1, b2, b3, b4, b5, _⟩ := hfacts.bounds c hc
    refine ⟨b1, b2, b3, ?_, b4, by omega⟩
    intro h0
    rw [h0] at b3
    simp at b3
    omega

/-- Witness for C17: a run that fills the array exactly and doubles before
the next call. -/
theorem ReadFrom_window_nonempty_in_bounds_witness :
    bytesReader.Respects ∧ (⟨⟨[9, 9, 7], 2⟩⟩ : ByteBuffer).B.WF ∧
    ByteBuffer.ReadFrom bytesReader 6 ⟨⟨[9, 9, 7], 2⟩⟩ [1, 2, 3, 4, 5] ≠ .panicked ∧
    ByteBuffer.ReadFrom bytesReader 2 ⟨⟨[9, 9, 7], 2⟩⟩ [1, 2, 3, 4, 5] ≠ .panicked :=
  ⟨bytesReader_respects, by decide,
    (ReadFrom_window_nonempty_in_bounds bytesReader bytesReader_respects ⟨⟨[9, 9, 7], 2⟩⟩
      (by decide) [1, 2, 3, 4, 5] 6).1,
    (ReadFrom_window_nonempty_in_bounds bytesReader bytesReader_respects ⟨⟨[9, 9, 7], 2⟩⟩
      (by decide) [1, 2, 3, 4, 5] 2).1⟩

/-- C18: `ReadFrom` over-allocates by at most a factor of two.  For every
well-formed buffer with capacity `c` and every contract-respecting reader
that reports an error within `k` calls, `ReadFrom` returns with a capacity of
at most `max(c0, 2 * Len())`, where `c0` is 64 if `c = 0` and `c` otherwise
and `Len()` is the length after the call; with `d` the number of doublings,
`c0 * 2^d ≤ max(c0, 2 * Len())`. -/
theorem ReadFrom_overallocates_at_most_twice {σ : Type} (r : Reader σ) (hr : r.Respects)
    (b : ByteBuffer) (hb : b.B.WF) (rs : σ) (k fuel : Nat) (hk : r.ErrorsWithin k rs)
    (hf : k ≤ fuel) :
    ∃ res, b.ReadFrom r fuel rs = .returned res ∧
      res.b.B.cap ≤ max (initCap b) (2 * res.b.Len) ∧
      initCap b * 2 ^ (res.calls.filter (·.grew)).length ≤ max (initCap b) (2 * res.b.Len) := by
  obtain ⟨res, h1, _, hfacts⟩ := ReadFrom_spec r hr b hb rs k fuel hk hf
  refine ⟨res, h1, hfacts.capBound, ?_⟩
  rw [← hfacts.cap]
  exact hfacts.capBound

/-- Witness for C18: the buffer `[9,9]` of capacity 3 ends with 7 bytes in a
capacity of 12. -/
theorem ReadFrom_overallocates_at_most_twice_witness :
    bytesReader.Respects ∧ (⟨⟨[9, 9, 7], 2⟩⟩ : ByteBuffer).B.WF ∧
    bytesReader.ErrorsWithin 6 [1, 2, 3, 4, 5] ∧
    (∃ res, ByteBuffer.ReadFrom bytesReader 6 ⟨⟨[9, 9, 7], 2⟩⟩ [1, 2, 3, 4, 5] = .returned res ∧
      res.b.B.cap ≤ max (initCap ⟨⟨[9, 9, 7], 2⟩⟩) (2 * res.b.Len)) :=
  have h := ReadFrom_overallocates_at_most_twice bytesReader bytesReader_respects
    ⟨⟨[9, 9, 7], 2⟩⟩ (by decide) [1, 2, 3, 4, 5] 6 6
    (bytesReader_errorsWithin 6 [1, 2, 3, 4, 5] (by decide)) (by decide)
  ⟨bytesReader_respects, by decide, bytesReader_errorsWithin 6 [1, 2, 3, 4, 5] (by decide),
    h.elim fun res hres => ⟨res, hres.1, hres.2.1⟩⟩

end Bufferpool
